import Mathlib

/-!
Verification of the NYC subway route analysis core (`gtfs_astar.py`).

The development embeds, as executable Lean definitions:
  * the record sets consumed by the graph builder (stops, aggregated trip
    segments, transfer links) and the transfer-weight SQL rule,
  * the directed-graph container with keyed edge insertion that merges
    attribute dictionaries and auto-creates missing endpoint nodes,
  * the great-circle heuristic (haversine over real numbers),
  * the A* path search engine (frontier ordered by f = g + h with
    insertion-order tie breaking, finalized-set skipping, predecessor
    reconstruction), modelled from the specification because the concrete
    search routine is a library call that is not part of this repository.

On top of the embedding we prove the behavioural properties of the graph
builder, the heuristic and the search, including the classical optimality
theorem for consistent heuristics and concrete refutations where the
stated properties fail on the code.
-/

namespace GtfsAstar

/-! ### Data model: records read from the schedule store -/

/-- A row of the `stops` table: `stop_id`, `stop_name`, and nullable
`stop_lat`/`stop_lon` (a NULL coordinate is `none`). -/
structure StopRec where
  sid : String
  sname : String
  lat : Option ℚ
  lon : Option ℚ
deriving DecidableEq, Repr

/-- A row of the aggregated travel-segment query
(`SELECT from_stop_id, to_stop_id, MIN(duration_sec) as weight, route_id …`):
an ordered stop pair with its minimum scheduled duration and a serving route. -/
structure TravelRec where
  src : String
  dst : String
  duration : ℤ
  route : String
deriving DecidableEq, Repr

/-- A row of the raw `transfers` table: an ordered stop pair with a nullable
`min_transfer_time`. -/
structure TransferRec where
  src : String
  dst : String
  minTransferTime : Option ℤ
deriving DecidableEq, Repr

/-- The transfer-weight rule of the SQL
`CASE WHEN min_transfer_time > 0 THEN min_transfer_time ELSE 180 END`:
a stored positive value is kept, any other value (zero, negative, NULL)
becomes the 180-second default. -/
def transferWeight (mt : Option ℤ) : ℤ :=
  match mt with
  | some t => if 0 < t then t else 180
  | none => 180

/-- The transfer edge query
(`SELECT from_stop_id, to_stop_id, CASE … END as weight FROM transfers
WHERE from_stop_id != to_stop_id`): self-loops are dropped and each kept row
carries the substituted weight. -/
def transferQuery (rs : List TransferRec) : List (String × String × ℤ) :=
  rs.filterMap fun r =>
    if r.src ≠ r.dst then some (r.src, r.dst, transferWeight r.minTransferTime) else none

/-! ### The directed graph container -/

/-- Edge kind: the `type` attribute is `'travel'` or `'transfer'`. -/
inductive EKind where
  | travel
  | transfer
deriving DecidableEq, Repr

/-- An edge record: the attribute dictionary of a `networkx` edge, holding
`weight`, `type` and an optional `route` (only travel insertions set it). -/
structure Edge where
  src : String
  dst : String
  weight : ℤ
  kind : EKind
  route : Option String
deriving DecidableEq, Repr

/-- Node attributes: `name` and `coords` are set for every loaded stop;
nodes auto-created by edge insertion have neither attribute.  The `coords`
attribute itself stores two nullable floats. -/
structure NodeAttr where
  nodeName : Option String
  coords : Option (Option ℚ × Option ℚ)
deriving DecidableEq, Repr

/-- A directed graph: ordered node list with attributes and ordered edge
list keyed by the ordered `(src, dst)` pair. -/
structure Graph where
  nodes : List (String × NodeAttr)
  edges : List Edge
deriving DecidableEq, Repr

def Graph.nodeIds (G : Graph) : List String := G.nodes.map Prod.fst

def Graph.hasNode (G : Graph) (x : String) : Prop := x ∈ G.nodeIds

instance (G : Graph) (x : String) : Decidable (G.hasNode x) :=
  inferInstanceAs (Decidable (x ∈ G.nodeIds))

/-- Attribute lookup `G.nodes[x]`, first matching entry. -/
def Graph.attrOf (G : Graph) (x : String) : Option NodeAttr :=
  (G.nodes.find? fun p => p.1 = x).map Prod.snd

/-- Add a node with empty attributes when it is not present yet
(the auto-creation performed by `networkx` `add_edge`). -/
def addNodeIfAbsent (G : Graph) (x : String) : Graph :=
  if G.hasNode x then G else { G with nodes := G.nodes ++ [(x, ⟨none, none⟩)] }

/-- Overwrite one edge record with the attribute dictionary passed to a new
`add_edge` call on the same ordered pair: `weight` and `type` are always
given and replace the old values, while `route` is only replaced when the
call passes it (`none` leaves the stored route untouched, which is how the
dictionary update keeps a stale `route` on a transfer overwrite). -/
def updEdge (old : Edge) (w : ℤ) (k : EKind) (r : Option String) : Edge :=
  { old with weight := w, kind := k, route := (match r with | some s => some s | none => old.route) }

/-- Replace the edge keyed by `(src, dst)` in place, or append a fresh edge
built from exactly the given attributes. -/
def insEdgeList : List Edge → String → String → ℤ → EKind → Option String → List Edge
  | [], s, d, w, k, r => [⟨s, d, w, k, r⟩]
  | e :: es, s, d, w, k, r =>
    if e.src = s ∧ e.dst = d then updEdge e w k r :: es
    else e :: insEdgeList es s d w k r

/-- The `G.add_edge(src, dst, weight=…, type=…, [route=…])` call: missing
endpoints are auto-created as attribute-less nodes, then the keyed edge
container is updated. -/
def addEdge (G : Graph) (s d : String) (w : ℤ) (k : EKind) (r : Option String) : Graph :=
  let G1 := addNodeIfAbsent (addNodeIfAbsent G s) d
  { G1 with edges := insEdgeList G1.edges s d w k r }

/-! ### The graph builder -/

/-- Initial node load: every stop becomes a node carrying its `name` and a
`coords` attribute holding the two nullable floats. -/
def stopsGraph (stops : List StopRec) : Graph :=
  ⟨stops.map fun s => (s.sid, ⟨some s.sname, some (s.lat, s.lon)⟩), []⟩

/-- Travel-edge phase: every aggregated travel record is inserted with no
endpoint check (absent endpoints become auto-created nodes). -/
def addTravelEdges (G : Graph) (tv : List TravelRec) : Graph :=
  tv.foldl (fun g r => addEdge g r.src r.dst r.duration .travel (some r.route)) G

/-- Transfer-edge phase: each row the transfer query kept is inserted only
when both endpoints are already nodes, overwriting any edge on the pair. -/
def addTransferEdges (G : Graph) (tf : List TransferRec) : Graph :=
  (transferQuery tf).foldl
    (fun g r => if g.hasNode r.1 ∧ g.hasNode r.2.1 then addEdge g r.1 r.2.1 r.2.2 .transfer none else g)
    G

/-- The graph builder of `build_network_and_predict`: load stop nodes,
insert all travel edges, then insert all transfer edges. -/
def buildGraph (stops : List StopRec) (tv : List TravelRec) (tf : List TransferRec) : Graph :=
  addTransferEdges (addTravelEdges (stopsGraph stops) tv) tf

/-- Every outgoing edge of a node, in container order. -/
def Graph.outEdges (G : Graph) (x : String) : List Edge :=
  G.edges.filter fun e => e.src = x

/-- Ordered key pair of an edge. -/
def pairOf (e : Edge) : String × String := (e.src, e.dst)

/-- First stored edge of the ordered pair, the `G[a][b]` lookup. -/
def findEdge (G : Graph) (a b : String) : Option Edge :=
  G.edges.find? fun e => e.src = a ∧ e.dst = b

/-- First stored weight of the ordered pair, when the pair has an edge. -/
def edgeWeight (G : Graph) (a b : String) : Option ℤ :=
  (findEdge G a b).map Edge.weight

/-- Weight of the last row on a given ordered pair in a transfer row list. -/
def lastWeightIn : List (String × String × ℤ) → String → String → Option ℤ
  | [], _, _ => none
  | r :: rs, a, b =>
    match lastWeightIn rs a b with
    | some w => some w
    | none => if r.1 = a ∧ r.2.1 = b then some r.2.2 else none

/-- Weight of the last transfer-query row on a given ordered pair. -/
def lastTransferWeight (tf : List TransferRec) (a b : String) : Option ℤ :=
  lastWeightIn (transferQuery tf) a b

/-- The graph stores some edge on the ordered pair. -/
def hasPair (G : Graph) (a b : String) : Prop := (a, b) ∈ G.edges.map pairOf

instance (G : Graph) (a b : String) : Decidable (hasPair G a b) :=
  inferInstanceAs (Decidable ((a, b) ∈ G.edges.map pairOf))

/-! ### The heuristic provider -/

/-- Degrees to radians, `math.radians`. -/
noncomputable def radians (d : ℝ) : ℝ := d * Real.pi / 180

/-- Two-argument arctangent, `math.atan2`, on the real plane. -/
noncomputable def atan2 (y x : ℝ) : ℝ :=
  if 0 < x then Real.arctan (y / x)
  else if x < 0 then
    (if 0 ≤ y then Real.arctan (y / x) + Real.pi else Real.arctan (y / x) - Real.pi)
  else if 0 < y then Real.pi / 2
  else if y < 0 then -(Real.pi / 2)
  else 0

/-- The haversine central-angle argument
`sin(dphi/2)**2 + cos(phi1)*cos(phi2)*sin(dlambda/2)**2`. -/
noncomputable def havA (lat1 lon1 lat2 lon2 : ℚ) : ℝ :=
  Real.sin (radians ((lat2 : ℝ) - (lat1 : ℝ)) / 2) ^ 2 +
    Real.cos (radians (lat1 : ℝ)) * Real.cos (radians (lat2 : ℝ)) *
      Real.sin (radians ((lon2 : ℝ) - (lon1 : ℝ)) / 2) ^ 2

/-- Great-circle distance in meters of the source `haversine` function:
`R * c` with `c = 2 * atan2(sqrt(a), sqrt(1 - a))` and `R = 6371000`. -/
noncomputable def haversine (lat1 lon1 lat2 lon2 : ℚ) : ℝ :=
  6371000 * (2 * atan2 (Real.sqrt (havA lat1 lon1 lat2 lon2)) (Real.sqrt (1 - havA lat1 lon1 lat2 lon2)))

/-- Modelled from the spec: the great-circle distance between two
coordinate pairs "using the haversine formula with Earth radius 6,371,000
meters", in its arcsine form `2 R arcsin (sqrt a)`; stated separately from
the source's `atan2` variant so that their agreement is a theorem. -/
noncomputable def specGreatCircle (lat1 lon1 lat2 lon2 : ℚ) : ℝ :=
  2 * 6371000 * Real.arcsin (Real.sqrt (havA lat1 lon1 lat2 lon2))

/-- A value of the floating-point heuristic: either a real number or the
IEEE `NaN` produced when a NULL coordinate flows through the formula. -/
inductive HVal where
  | nan
  | val (r : ℝ)

/-- Projection of a heuristic value to a real number (`NaN` mapped to 0);
used only to state properties at inputs proven to be non-`NaN`. -/
noncomputable def HVal.getR : HVal → ℝ
  | .nan => 0
  | .val r => r

/-- The `heuristic(u, v)` closure of the source: fetch the `coords` node
attributes of both identifiers (a failed lookup — unknown node or missing
attribute — raises `KeyError`, caught and turned into 0), then evaluate the
haversine formula on the stored floats and divide by the 10 m/s cruising
speed.  A stored NULL coordinate is the float `NaN`, which propagates
through the arithmetic instead of raising. -/
noncomputable def heuristic (G : Graph) (u v : String) : HVal :=
  match (G.attrOf u).bind NodeAttr.coords, (G.attrOf v).bind NodeAttr.coords with
  | some cu, some cv =>
    match cu.1, cu.2, cv.1, cv.2 with
    | some la1, some lo1, some la2, some lo2 => .val (haversine la1 lo1 la2 lo2 / 10)
    | _, _, _, _ => .nan
  | _, _ => .val 0

/-- The per-query heuristic handed to the search engine: the destination is
fixed and each frontier node is estimated against it. -/
noncomputable def heurFun (G : Graph) (t : String) : String → ℝ :=
  fun u => (heuristic G u t).getR

/-! ### The path search engine

Modelled from the spec: the concrete search routine is a library call
(`networkx.astar_path` / `astar_path_length`) that is not part of this
repository, so the engine below follows the specification's description
of the Path Search Engine: a frontier ordered by `f = g + h` with ties
broken by insertion order, a finalized set whose members are skipped when
popped again, a per-node best-known-g map updated on strict improvement,
a predecessor map, success returning the reconstructed path together with
`total_seconds = g[destination]`, and failure when the frontier empties.
The cost type is any linear ordered ring so that the searches of the
program (real-valued heuristic) and rational reference runs share one
definition.  Recursion is fuelled; the fuel is provably sufficient. -/

/-- Association-list lookup (first binding wins). -/
def lookupA {β : Type} (m : List (String × β)) (x : String) : Option β :=
  (m.find? fun p => p.1 = x).map Prod.snd

/-- Association-list update: replace the binding in place or append it. -/
def setA {β : Type} : List (String × β) → String → β → List (String × β)
  | [], x, b => [(x, b)]
  | p :: ps, x, b => if p.1 = x then (x, b) :: ps else p :: setA ps x b

/-- A frontier entry: priority `fv = g + h`, an insertion counter used to
break priority ties in favour of the earliest insertion, and the node. -/
structure QEntry (α : Type) where
  fv : α
  ctr : ℕ
  node : String

/-- Priority order on frontier entries: smaller `f` first, ties broken by
the insertion counter. -/
def qLE {α : Type} [LinearOrderedCommRing α] (e f : QEntry α) : Prop :=
  e.fv < f.fv ∨ (e.fv = f.fv ∧ e.ctr ≤ f.ctr)

instance {α : Type} [LinearOrderedCommRing α] (e f : QEntry α) : Decidable (qLE e f) :=
  inferInstanceAs (Decidable (e.fv < f.fv ∨ (e.fv = f.fv ∧ e.ctr ≤ f.ctr)))

/-- Remove the frontier entry with the smallest priority. -/
def popMin {α : Type} [LinearOrderedCommRing α] :
    List (QEntry α) → Option (QEntry α × List (QEntry α))
  | [] => none
  | e :: es =>
    match popMin es with
    | none => some (e, [])
    | some (m, rest) => if qLE e m then some (e, es) else some (m, e :: rest)

/-- The mutable state of the search: frontier, best-known-g map,
predecessor map, finalized set, and the next insertion counter. -/
structure SState (α : Type) where
  queue : List (QEntry α)
  gmap : List (String × α)
  pred : List (String × String)
  finalized : List String
  ctr : ℕ

/-- Relax one outgoing edge of a freshly finalized node: when the candidate
cost strictly improves the best known cost of the edge head (or the head is
undiscovered), record it, repoint the predecessor, and push a frontier
entry with `f = candidate + h(head)`. -/
def relaxEdge {α : Type} [LinearOrderedCommRing α] (h : String → α) (src : String) (gsrc : α)
    (st : SState α) (e : Edge) : SState α :=
  let cand := gsrc + (e.weight : α)
  let push : SState α :=
    { queue := st.queue ++ [⟨cand + h e.dst, st.ctr, e.dst⟩]
      gmap := setA st.gmap e.dst cand
      pred := setA st.pred e.dst src
      finalized := st.finalized
      ctr := st.ctr + 1 }
  match lookupA st.gmap e.dst with
  | some gd => if cand < gd then push else st
  | none => push

/-- Relax every outgoing edge of a node, in container order. -/
def expand {α : Type} [LinearOrderedCommRing α] (G : Graph) (h : String → α) (node : String)
    (gn : α) (st : SState α) : SState α :=
  (G.outEdges node).foldl (relaxEdge h node gn) st

/-- Walk the predecessor map back from the current node to the origin,
accumulating the path; fuelled by the caller. -/
def reconsAux (pred : List (String × String)) (origin : String) :
    ℕ → String → List String → Option (List String)
  | 0, _, _ => none
  | n + 1, cur, acc =>
    if cur = origin then some (cur :: acc)
    else
      match lookupA pred cur with
      | some p => reconsAux pred origin n p (cur :: acc)
      | none => none

/-- Reconstruct the path from origin to destination by following recorded
predecessors; the predecessor map size bounds the chain length. -/
def reconstructPath (pred : List (String × String)) (origin dest : String) :
    Option (List String) :=
  reconsAux pred origin (pred.length + 1) dest []

/-- Outcome of a search: a path with its total cost, frontier exhaustion,
or the unreachable breakdown marker `stuck` (fuel ran out or an internal
map lookup that the algorithm's invariants guarantee failed). -/
inductive SearchResult (α : Type) where
  | found (path : List String) (total : α)
  | noPath
  | stuck
deriving DecidableEq

/-- One iteration: pop the minimum-priority entry; on the destination,
return the reconstructed path and `g[destination]`; skip finalized nodes;
otherwise finalize the node and relax its outgoing edges. -/
inductive StepOut (α : Type) where
  | halt (r : SearchResult α)
  | go (st : SState α)

def astarStep {α : Type} [LinearOrderedCommRing α] (G : Graph) (h : String → α)
    (origin dest : String) (st : SState α) : StepOut α :=
  match popMin st.queue with
  | none => .halt .noPath
  | some (e, q2) =>
    if e.node = dest then
      match lookupA st.gmap dest, reconstructPath st.pred origin dest with
      | some g, some p => .halt (.found p g)
      | _, _ => .halt .stuck
    else if e.node ∈ st.finalized then .go { st with queue := q2 }
    else
      match lookupA st.gmap e.node with
      | some gn =>
        .go (expand G h e.node gn { st with queue := q2, finalized := e.node :: st.finalized })
      | none => .halt .stuck

/-- The fuelled main loop. -/
def astarLoop {α : Type} [LinearOrderedCommRing α] (G : Graph) (h : String → α)
    (origin dest : String) : ℕ → SState α → SearchResult α
  | 0, _ => .stuck
  | n + 1, st =>
    match astarStep G h origin dest st with
    | .halt r => r
    | .go st2 => astarLoop G h origin dest n st2

/-- The initial state: `g[origin] = 0` and one frontier entry with
`f = h(origin)`. -/
def initState {α : Type} [LinearOrderedCommRing α] (h : String → α) (s : String) : SState α :=
  ⟨[⟨h s, 0, s⟩], [(s, 0)], [], [], 1⟩

/-- Fuel that provably outlasts every execution: one iteration per initial
frontier entry plus, per distinct node, one finalizing pop and one push per
outgoing edge, plus the final empty-frontier check. -/
def runFuel (G : Graph) : ℕ :=
  2 + (G.nodeIds.dedup.map fun v => 1 + (G.outEdges v).length).sum

/-- Run the search with fuel that provably outlasts every execution. -/
def astarRun {α : Type} [LinearOrderedCommRing α] (G : Graph) (h : String → α)
    (s t : String) : SearchResult α :=
  astarLoop G h s t (runFuel G) (initState h s)

/-- Result of a route query as reported by the program. -/
inductive PlanResult (α : Type) where
  | route (path : List String) (total : α)
  | noPathFound
  | nodeNotFound
  | stuck
deriving DecidableEq

/-- The query flow of `build_network_and_predict`: check that both
endpoints are nodes before any search (report `NodeNotFound` otherwise),
then run the search and report either the route or `NoPathFound`. -/
def planRoute {α : Type} [LinearOrderedCommRing α] (G : Graph) (h : String → α)
    (s t : String) : PlanResult α :=
  if G.hasNode s ∧ G.hasNode t then
    match astarRun G h s t with
    | .found p d => .route p d
    | .noPath => .noPathFound
    | .stuck => .stuck
  else .nodeNotFound

/-- The route query exactly as the program issues it: the engine over the
reals with the coordinate heuristic toward the destination. -/
noncomputable def planRouteReal (G : Graph) (s t : String) : PlanResult ℝ :=
  planRoute G (heurFun G t) s t

/-! ### Walks, path costs and shortest distances -/

/-- Cost-annotated directed walks: consecutive edges of the graph, the cost
being the sum of their integer weights. -/
inductive GWalk (G : Graph) : String → String → ℤ → Prop where
  | nil (x : String) : GWalk G x x 0
  | cons {x z : String} {c : ℤ} (e : Edge) (he : e ∈ G.edges) (hs : e.src = x)
      (tail : GWalk G e.dst z c) : GWalk G x z (e.weight + c)

/-- Destination reachable from origin through the stored edges. -/
def Reachable (G : Graph) (s t : String) : Prop := ∃ c, GWalk G s t c

/-- The shortest-path distance: attained by a walk and a lower bound of
every walk cost.  This is the value a reference uniform-cost (Dijkstra)
search over the same graph and edge weights computes for a reachable pair. -/
def IsShortestDist (G : Graph) (s t : String) (d : ℤ) : Prop :=
  GWalk G s t d ∧ ∀ c, GWalk G s t c → d ≤ c

/-- Total weight of the consecutive edges along a node list, `none` when
some consecutive pair has no edge. -/
def pathCost (G : Graph) : List String → Option ℤ
  | [] => some 0
  | [_] => some 0
  | a :: b :: rest =>
    match edgeWeight G a b, pathCost G (b :: rest) with
    | some w, some c => some (w + c)
    | _, _ => none

/-- Every stored edge joins two existing nodes. -/
def EdgesClosed (G : Graph) : Prop := ∀ e ∈ G.edges, G.hasNode e.src ∧ G.hasNode e.dst

/-- Every stored edge weight is nonnegative (the spec's data model declares
edge weights to be nonnegative integer seconds). -/
def WeightsNonneg (G : Graph) : Prop := ∀ e ∈ G.edges, 0 ≤ e.weight

/-- At most one stored edge per ordered node pair. -/
def PairsNodup (G : Graph) : Prop := (G.edges.map pairOf).Nodup

instance (G : Graph) : Decidable (EdgesClosed G) :=
  inferInstanceAs (Decidable (∀ e ∈ G.edges, G.hasNode e.src ∧ G.hasNode e.dst))

instance (G : Graph) : Decidable (WeightsNonneg G) :=
  inferInstanceAs (Decidable (∀ e ∈ G.edges, 0 ≤ e.weight))

instance (G : Graph) : Decidable (PairsNodup G) :=
  inferInstanceAs (Decidable ((G.edges.map pairOf).Nodup))

/-- A heuristic is consistent when it never decreases by more than an edge
weight along any stored edge; the spec requires this (together with
admissibility) for the search to return shortest paths. -/
def Consistent {α : Type} [LinearOrderedCommRing α] (G : Graph) (h : String → α) : Prop :=
  ∀ e ∈ G.edges, h e.src ≤ (e.weight : α) + h e.dst

/-! ### Search-state invariants -/

/-- Termination potential: every pending frontier entry plus, for every
not-yet-finalized node, one pop and one push per outgoing edge. -/
def potential {α : Type} (G : Graph) (st : SState α) : ℕ :=
  st.queue.length +
    ((G.nodeIds.dedup.filter fun v => v ∉ st.finalized).map fun v => 1 + (G.outEdges v).length).sum

/-- The structural search invariant, independent of any heuristic property:
frontier nodes have best-known costs, recorded nodes are frontier-or-final
and reachable, finalized nodes are distinct graph nodes none of which is
the destination, and the finalized region is relaxed into the record. -/
structure InvL {α : Type} [LinearOrderedCommRing α] (G : Graph) (s t : String) (X : List String)
    (st : SState α) : Prop where
  qsub : ∀ e ∈ st.queue, ∃ g, lookupA st.gmap e.node = some g
  gsub : ∀ x g, lookupA st.gmap x = some g → (∃ e ∈ st.queue, QEntry.node e = x) ∨ x ∈ st.finalized
  greach : ∀ x g, lookupA st.gmap x = some g → Reachable G s x
  sing : ∃ g, lookupA st.gmap s = some g
  qnode : ∀ e ∈ st.queue, G.hasNode e.node
  fnode : ∀ x ∈ st.finalized, G.hasNode x
  fdup : st.finalized.Nodup
  tfree : t ∉ st.finalized
  fing : ∀ x ∈ st.finalized, ∃ g, lookupA st.gmap x = some g
  fclosed : ∀ x ∈ st.finalized, x ∉ X → ∀ e ∈ G.outEdges x, ∃ g, lookupA st.gmap e.dst = some g

/-- The full invariant for a consistent heuristic over nonnegative weights:
in addition to the structural part, recorded costs are realized by walks,
finalized costs are shortest, the finalized region is cost-relaxed, every
frontier priority dominates the current recorded cost, every live recorded
node keeps a frontier entry at its current cost, the origin stays at cost
zero, and every recorded node other than the origin hangs on a finalized
predecessor through a recorded edge, acyclically along finalization order. -/
structure InvC {α : Type} [LinearOrderedCommRing α] (G : Graph) (h : String → α) (s t : String)
    (X : List String) (st : SState α) extends InvL G s t X st : Prop where
  gwalk : ∀ x g, lookupA st.gmap x = some g → ∃ c : ℤ, GWalk G s x c ∧ g = (c : α)
  fexact : ∀ x ∈ st.finalized, ∀ g, lookupA st.gmap x = some g → ∀ c, GWalk G s x c → g ≤ (c : α)
  frelax : ∀ x ∈ st.finalized, x ∉ X → ∀ gx, lookupA st.gmap x = some gx →
    ∀ e ∈ G.outEdges x, ∃ gd, lookupA st.gmap e.dst = some gd ∧ gd ≤ gx + (e.weight : α)
  qle : ∀ e ∈ st.queue, ∀ g, lookupA st.gmap e.node = some g → g + h e.node ≤ QEntry.fv e
  fresh : ∀ x g, lookupA st.gmap x = some g → x ∉ st.finalized →
    ∃ e ∈ st.queue, QEntry.node e = x ∧ QEntry.fv e ≤ g + h x
  szero : lookupA st.gmap s = some 0
  chain : ∀ x g, lookupA st.gmap x = some g → x ≠ s →
    ∃ p w gp, lookupA st.pred x = some p ∧ lookupA st.gmap p = some gp ∧
      edgeWeight G p x = some w ∧ g = gp + (w : α) ∧
      ∃ l1 l2, st.finalized = l1 ++ p :: l2 ∧ (∀ m1 m2, st.finalized = m1 ++ x :: m2 → p ∈ m2)

/-! ### Concrete schedule snapshots used by the verification scenarios -/

/-- The stations of the spec's scenarios A and B. -/
def stopsABC : List StopRec :=
  [⟨"A", "Station A", some 0, some 0⟩, ⟨"B", "Station B", some 0, some 1⟩,
   ⟨"C", "Station C", some 0, some 2⟩]

/-- The travel records of the spec's scenarios A and B:
A→B (100 s) and B→C (200 s). -/
def travelsABC : List TravelRec := [⟨"A", "B", 100, "r1"⟩, ⟨"B", "C", 200, "r1"⟩]

/-- Scenario A's graph: the two travel edges only. -/
def gA : Graph := buildGraph stopsABC travelsABC []

/-- Scenario B's graph: scenario A plus a transfer record A→B (50 s)
inserted after the travel edges. -/
def gB : Graph := buildGraph stopsABC travelsABC [⟨"A", "B", some 50⟩]

/-- Scenario C's graph: two stations and no edge at all. -/
def gC : Graph :=
  buildGraph [⟨"A", "Station A", some 0, some 0⟩, ⟨"B", "Station B", some 0, some 1⟩] [] []

/-- Scenario E's graph: a transfer record with `min_transfer_time = 0`. -/
def gE : Graph :=
  buildGraph [⟨"A", "Station A", some 0, some 0⟩, ⟨"B", "Station B", some 0, some 1⟩] []
    [⟨"A", "B", some 0⟩]

/-- A snapshot whose travel table references the unknown stop `Z`:
the builder inserts the edge anyway and auto-creates the node. -/
def gZ : Graph := buildGraph [⟨"A", "Station A", some 0, some 0⟩] [⟨"A", "Z", 5, "r1"⟩] []

/-- A snapshot with a stored NULL latitude on stop `N`. -/
def gN : Graph :=
  buildGraph [⟨"N", "Station N", none, some 0⟩, ⟨"M", "Station M", some 0, some 0⟩] [] []

/-- Two antipodal stations joined by a 1-second travel edge: the heuristic
estimate between them vastly exceeds the only path's cost. -/
def gFar : Graph :=
  buildGraph [⟨"A", "Station A", some 0, some 0⟩, ⟨"B", "Station B", some 0, some 180⟩]
    [⟨"A", "B", 1, "r1"⟩] []

/-- A snapshot on which the program's search returns a non-shortest route:
the auto-created stops `S` and `B` carry no coordinates (heuristic 0) while
station `A` sits antipodal to the destination `G`, so the grossly
overestimating `h(A)` starves the cheap route S→A→G and the search returns
S→B→G (cost 20) although the minimum is 10. -/
def gOpt : Graph :=
  buildGraph [⟨"A", "Station A", some 0, some 0⟩, ⟨"G", "Station G", some 0, some 180⟩]
    [⟨"S", "A", 5, "r1"⟩, ⟨"A", "G", 5, "r1"⟩, ⟨"S", "B", 5, "r1"⟩, ⟨"B", "G", 15, "r1"⟩] []

/-- A snapshot on which the returned total disagrees with the returned
path: `M` (pole-distant from the destination `X`) relaxes the already
finalized `U` to a cheaper cost, repointing `U`'s predecessor after `X`'s
own cost was recorded; the reported total keeps the stale `g[X]` while the
reconstructed path follows the repointed predecessors. -/
def gTot : Graph :=
  buildGraph [⟨"M", "Station M", some 0, some 0⟩, ⟨"X", "Station X", some 90, some 0⟩]
    [⟨"S", "U", 1000755, "r1"⟩, ⟨"S", "M", 1, "r1"⟩, ⟨"M", "U", 1, "r1"⟩, ⟨"U", "X", 1, "r1"⟩] []

/-- The all-zero heuristic of the degraded (uniform-cost) searches used by
the integer witnesses. -/
def zeroHeur : String → ℤ := fun _ => 0

/-- Position measure on the finalized list: a node finalized earlier (nearer
the tail) measures smaller, a node finalized later measures larger, and an
absent node measures larger than every present one.  The predecessor chain
strictly decreases this measure, which drives the path-reconstruction
induction. -/
def finMeasure : List String → String → ℕ
  | [], _ => 1
  | y :: ys, x =>
    if x ∈ ys then finMeasure ys x else if y = x then ys.length + 1 else ys.length + 2

/-! ### Lemmas on the keyed edge container -/

theorem insEdgeList_pairs (es : List Edge) (s d : String) (w : ℤ) (k : EKind) (r : Option String) :
    (insEdgeList es s d w k r).map pairOf =
      if (s, d) ∈ es.map pairOf then es.map pairOf else es.map pairOf ++ [(s, d)] := by
  induction es with
  | nil => simp [insEdgeList, pairOf]
  | cons e es ih =>
    by_cases hm : e.src = s ∧ e.dst = d
    · simp [insEdgeList, hm, updEdge, pairOf, hm.1, hm.2]
    · have hne : pairOf e ≠ (s, d) := fun hc =>
        hm ⟨congrArg Prod.fst hc, congrArg Prod.snd hc⟩
      simp only [insEdgeList, if_neg hm, List.map_cons, ih, List.mem_cons]
      by_cases hin : (s, d) ∈ es.map pairOf
      · simp [hin, hne.symm]
      · simp [hin, hne.symm]

theorem insEdgeList_mem (es : List Edge) (s d : String) (w : ℤ) (k : EKind) (r : Option String) :
    ∀ e2 ∈ insEdgeList es s d w k r,
      e2 ∈ es ∨ (e2.src = s ∧ e2.dst = d ∧ e2.weight = w ∧ e2.kind = k ∧
        (e2.route = r ∨ ∃ e0 ∈ es, r = none ∧ e2.route = e0.route)) := by
  induction es with
  | nil =>
    intro e2 he2
    simp only [insEdgeList, List.mem_singleton] at he2
    subst he2
    exact Or.inr ⟨rfl, rfl, rfl, rfl, Or.inl rfl⟩
  | cons e es ih =>
    intro e2 he2
    by_cases hm : e.src = s ∧ e.dst = d
    · simp only [insEdgeList, if_pos hm, List.mem_cons] at he2
      rcases he2 with he2 | he2
      · subst he2
        refine Or.inr ⟨hm.1, hm.2, rfl, rfl, ?_⟩
        cases r with
        | none => exact Or.inr ⟨e, List.mem_cons_self e es, rfl, rfl⟩
        | some rv => exact Or.inl rfl
      · exact Or.inl (List.mem_cons_of_mem e he2)
    · simp only [insEdgeList, if_neg hm, List.mem_cons] at he2
      rcases he2 with he2 | he2
      · exact Or.inl (by simp [he2])
      · rcases ih e2 he2 with h | ⟨h1, h2, h3, h4, h5⟩
        · exact Or.inl (List.mem_cons_of_mem e h)
        · refine Or.inr ⟨h1, h2, h3, h4, ?_⟩
          rcases h5 with h5 | ⟨e0, he0, hr, hq⟩
          · exact Or.inl h5
          · exact Or.inr ⟨e0, List.mem_cons_of_mem e he0, hr, hq⟩

theorem findEdge_insEdgeList_self (es : List Edge) (s d : String) (w : ℤ) (k : EKind)
    (r : Option String) :
    (insEdgeList es s d w k r).find? (fun e => e.src = s ∧ e.dst = d) =
      some (match es.find? (fun e => e.src = s ∧ e.dst = d) with
            | some old => updEdge old w k r
            | none => ⟨s, d, w, k, r⟩) := by
  induction es with
  | nil => simp [insEdgeList, List.find?]
  | cons e es ih =>
    by_cases hm : e.src = s ∧ e.dst = d
    · have hupd : (updEdge e w k r).src = s ∧ (updEdge e w k r).dst = d := by
        simp [updEdge, hm.1, hm.2]
      simp only [insEdgeList, if_pos hm]
      rw [List.find?_cons_of_pos _ (by simpa using hupd), List.find?_cons_of_pos _ (by simpa using hm)]
    · simp only [insEdgeList, if_neg hm]
      rw [List.find?_cons_of_neg _ (by simpa using hm), List.find?_cons_of_neg _ (by simpa using hm)]
      exact ih

theorem findEdge_insEdgeList_other (es : List Edge) (s d a b : String) (w : ℤ) (k : EKind)
    (r : Option String) (hne : ¬(s = a ∧ d = b)) :
    (insEdgeList es s d w k r).find? (fun e => e.src = a ∧ e.dst = b) =
      es.find? (fun e => e.src = a ∧ e.dst = b) := by
  induction es with
  | nil =>
    simp only [insEdgeList]
    rw [List.find?_cons_of_neg _ (by simpa using hne), List.find?_nil]
  | cons e es ih =>
    by_cases hm : e.src = s ∧ e.dst = d
    · have h1 : ¬((updEdge e w k r).src = a ∧ (updEdge e w k r).dst = b) := by
        simp only [updEdge, hm.1, hm.2]
        exact hne
      have h2 : ¬(e.src = a ∧ e.dst = b) := by
        rw [hm.1, hm.2]
        exact hne
      simp only [insEdgeList, if_pos hm]
      rw [List.find?_cons_of_neg _ (by simpa using h1), List.find?_cons_of_neg _ (by simpa using h2)]
    · simp only [insEdgeList, if_neg hm]
      by_cases hk : e.src = a ∧ e.dst = b
      · rw [List.find?_cons_of_pos _ (by simpa using hk), List.find?_cons_of_pos _ (by simpa using hk)]
      · rw [List.find?_cons_of_neg _ (by simpa using hk), List.find?_cons_of_neg _ (by simpa using hk)]
        exact ih

/-! ### Lemmas about nodes and edges of builder steps -/

theorem edges_addNodeIfAbsent (G : Graph) (x : String) :
    (addNodeIfAbsent G x).edges = G.edges := by
  unfold addNodeIfAbsent
  split <;> rfl

theorem nodeIds_addNodeIfAbsent (G : Graph) (x : String) :
    (addNodeIfAbsent G x).nodeIds = if G.hasNode x then G.nodeIds else G.nodeIds ++ [x] := by
  unfold addNodeIfAbsent Graph.nodeIds
  split <;> simp

theorem hasNode_addNodeIfAbsent (G : Graph) (x y : String) :
    (addNodeIfAbsent G x).hasNode y ↔ G.hasNode y ∨ y = x := by
  unfold Graph.hasNode
  rw [nodeIds_addNodeIfAbsent]
  by_cases hx : G.hasNode x
  · rw [if_pos hx]
    unfold Graph.hasNode at hx
    constructor
    · exact Or.inl
    · rintro (h | rfl)
      · exact h
      · exact hx
  · rw [if_neg hx]
    simp [Graph.hasNode]

theorem edges_addEdge (G : Graph) (s d : String) (w : ℤ) (k : EKind) (r : Option String) :
    (addEdge G s d w k r).edges = insEdgeList G.edges s d w k r := by
  unfold addEdge
  simp [edges_addNodeIfAbsent]

theorem nodes_addEdge (G : Graph) (s d : String) (w : ℤ) (k : EKind) (r : Option String) :
    (addEdge G s d w k r).nodes = (addNodeIfAbsent (addNodeIfAbsent G s) d).nodes := rfl

theorem hasNode_addEdge (G : Graph) (s d : String) (w : ℤ) (k : EKind) (r : Option String)
    (y : String) : (addEdge G s d w k r).hasNode y ↔ G.hasNode y ∨ y = s ∨ y = d := by
  have hn : (addEdge G s d w k r).hasNode y ↔ (addNodeIfAbsent (addNodeIfAbsent G s) d).hasNode y := by
    unfold Graph.hasNode Graph.nodeIds
    rw [nodes_addEdge]
  rw [hn, hasNode_addNodeIfAbsent, hasNode_addNodeIfAbsent]
  tauto

theorem nodes_addEdge_of_hasNode (G : Graph) (s d : String) (w : ℤ) (k : EKind)
    (r : Option String) (hs : G.hasNode s) (hd : G.hasNode d) :
    (addEdge G s d w k r).nodes = G.nodes := by
  rw [nodes_addEdge]
  unfold addNodeIfAbsent
  rw [if_pos hs]
  rw [if_pos hd]

theorem hasNode_mono_addEdge (G : Graph) (s d : String) (w : ℤ) (k : EKind) (r : Option String)
    (y : String) (hy : G.hasNode y) : (addEdge G s d w k r).hasNode y :=
  (hasNode_addEdge G s d w k r y).mpr (Or.inl hy)

theorem hasNode_addTravelEdges (G : Graph) (tv : List TravelRec) (y : String)
    (hy : G.hasNode y) : (addTravelEdges G tv).hasNode y := by
  induction tv generalizing G with
  | nil => exact hy
  | cons r rs ih =>
    unfold addTravelEdges
    simp only [List.foldl_cons]
    exact ih _ (hasNode_mono_addEdge _ _ _ _ _ _ _ hy)

theorem nodes_addTransferEdgesAux (G : Graph) (rows : List (String × String × ℤ)) :
    (rows.foldl
      (fun g r => if g.hasNode r.1 ∧ g.hasNode r.2.1 then addEdge g r.1 r.2.1 r.2.2 .transfer none else g)
      G).nodes = G.nodes := by
  induction rows generalizing G with
  | nil => rfl
  | cons r rs ih =>
    simp only [List.foldl_cons]
    by_cases hg : G.hasNode r.1 ∧ G.hasNode r.2.1
    · rw [if_pos hg, ih, nodes_addEdge_of_hasNode _ _ _ _ _ _ hg.1 hg.2]
    · rw [if_neg hg, ih]

theorem nodes_addTransferEdges (G : Graph) (tf : List TransferRec) :
    (addTransferEdges G tf).nodes = G.nodes :=
  nodes_addTransferEdgesAux G (transferQuery tf)

theorem hasNode_addTransferEdges (G : Graph) (tf : List TransferRec) (y : String) :
    (addTransferEdges G tf).hasNode y ↔ G.hasNode y := by
  unfold Graph.hasNode Graph.nodeIds
  rw [nodes_addTransferEdges]

/-! ### Builder invariants: closed edges, unique pairs, provenance -/

theorem edgesClosed_addEdge (G : Graph) (s d : String) (w : ℤ) (k : EKind) (r : Option String)
    (hG : EdgesClosed G) : EdgesClosed (addEdge G s d w k r) := by
  intro e he
  rw [edges_addEdge] at he
  rcases insEdgeList_mem _ _ _ _ _ _ e he with h | ⟨h1, h2, _, _, _⟩
  · obtain ⟨hs, hd⟩ := hG e h
    exact ⟨hasNode_mono_addEdge _ _ _ _ _ _ _ hs, hasNode_mono_addEdge _ _ _ _ _ _ _ hd⟩
  · constructor
    · rw [h1]
      exact (hasNode_addEdge G s d w k r s).mpr (Or.inr (Or.inl rfl))
    · rw [h2]
      exact (hasNode_addEdge G s d w k r d).mpr (Or.inr (Or.inr rfl))

theorem edgesClosed_addTravelEdges (G : Graph) (tv : List TravelRec) (hG : EdgesClosed G) :
    EdgesClosed (addTravelEdges G tv) := by
  induction tv generalizing G with
  | nil => exact hG
  | cons r rs ih =>
    unfold addTravelEdges
    simp only [List.foldl_cons]
    exact ih _ (edgesClosed_addEdge _ _ _ _ _ _ hG)

theorem edgesClosed_addTransferEdges (G : Graph) (tf : List TransferRec) (hG : EdgesClosed G) :
    EdgesClosed (addTransferEdges G tf) := by
  unfold addTransferEdges
  generalize transferQuery tf = rows
  induction rows generalizing G with
  | nil => exact hG
  | cons r rs ih =>
    simp only [List.foldl_cons]
    by_cases hg : G.hasNode r.1 ∧ G.hasNode r.2.1
    · rw [if_pos hg]
      exact ih _ (edgesClosed_addEdge _ _ _ _ _ _ hG)
    · rw [if_neg hg]
      exact ih _ hG

theorem edgesClosed_buildGraph (stops : List StopRec) (tv : List TravelRec)
    (tf : List TransferRec) : EdgesClosed (buildGraph stops tv tf) := by
  apply edgesClosed_addTransferEdges
  apply edgesClosed_addTravelEdges
  intro e he
  simp [stopsGraph] at he

theorem pairsNodup_addEdge (G : Graph) (s d : String) (w : ℤ) (k : EKind) (r : Option String)
    (hG : PairsNodup G) : PairsNodup (addEdge G s d w k r) := by
  unfold PairsNodup at hG ⊢
  rw [edges_addEdge, insEdgeList_pairs]
  by_cases hin : (s, d) ∈ G.edges.map pairOf
  · rw [if_pos hin]
    exact hG
  · rw [if_neg hin]
    rw [List.nodup_append]
    refine ⟨hG, List.nodup_singleton _, ?_⟩
    intro p hp hq
    simp only [List.mem_singleton] at hq
    subst hq
    exact hin hp

theorem pairsNodup_addTravelEdges (G : Graph) (tv : List TravelRec) (hG : PairsNodup G) :
    PairsNodup (addTravelEdges G tv) := by
  induction tv generalizing G with
  | nil => exact hG
  | cons r rs ih =>
    unfold addTravelEdges
    simp only [List.foldl_cons]
    exact ih _ (pairsNodup_addEdge _ _ _ _ _ _ hG)

theorem pairsNodup_addTransferEdges (G : Graph) (tf : List TransferRec) (hG : PairsNodup G) :
    PairsNodup (addTransferEdges G tf) := by
  unfold addTransferEdges
  generalize transferQuery tf = rows
  induction rows generalizing G with
  | nil => exact hG
  | cons r rs ih =>
    simp only [List.foldl_cons]
    by_cases hg : G.hasNode r.1 ∧ G.hasNode r.2.1
    · rw [if_pos hg]
      exact ih _ (pairsNodup_addEdge _ _ _ _ _ _ hG)
    · rw [if_neg hg]
      exact ih _ hG

theorem pairsNodup_buildGraph (stops : List StopRec) (tv : List TravelRec)
    (tf : List TransferRec) : PairsNodup (buildGraph stops tv tf) := by
  apply pairsNodup_addTransferEdges
  apply pairsNodup_addTravelEdges
  simp [PairsNodup, stopsGraph]

theorem mem_transferQuery (tf : List TransferRec) (row : String × String × ℤ) :
    row ∈ transferQuery tf ↔
      ∃ r ∈ tf, r.src ≠ r.dst ∧ row = (r.src, r.dst, transferWeight r.minTransferTime) := by
  unfold transferQuery
  rw [List.mem_filterMap]
  constructor
  · rintro ⟨r, hr, hrow⟩
    by_cases hne : r.src ≠ r.dst
    · rw [if_pos hne] at hrow
      exact ⟨r, hr, hne, (Option.some_injective _ hrow).symm⟩
    · rw [if_neg hne] at hrow
      exact absurd hrow (by simp)
  · rintro ⟨r, hr, hne, hrow⟩
    exact ⟨r, hr, by rw [if_pos hne, hrow]⟩

theorem travelPhase_edge_mem (G : Graph) (tv : List TravelRec) :
    ∀ e ∈ (addTravelEdges G tv).edges, e ∈ G.edges ∨ e.kind = .travel := by
  induction tv generalizing G with
  | nil => exact fun e he => Or.inl he
  | cons r rs ih =>
    intro e he
    unfold addTravelEdges at he
    simp only [List.foldl_cons] at he
    rcases ih _ e he with h | h
    · rw [edges_addEdge] at h
      rcases insEdgeList_mem _ _ _ _ _ _ e h with h2 | ⟨_, _, _, h4, _⟩
      · exact Or.inl h2
      · exact Or.inr h4
    · exact Or.inr h

theorem transferPhase_edge_mem (G : Graph) (rows : List (String × String × ℤ)) :
    ∀ e ∈ (rows.foldl
      (fun g r => if g.hasNode r.1 ∧ g.hasNode r.2.1 then addEdge g r.1 r.2.1 r.2.2 .transfer none else g)
      G).edges,
      e ∈ G.edges ∨ (e.kind = .transfer ∧
        ∃ row ∈ rows, e.src = row.1 ∧ e.dst = row.2.1 ∧ e.weight = row.2.2) := by
  induction rows generalizing G with
  | nil => exact fun e he => Or.inl he
  | cons r rs ih =>
    intro e he
    simp only [List.foldl_cons] at he
    by_cases hg : G.hasNode r.1 ∧ G.hasNode r.2.1
    · rw [if_pos hg] at he
      rcases ih _ e he with h | ⟨hk, row, hrow, h1, h2, h3⟩
      · rw [edges_addEdge] at h
        rcases insEdgeList_mem _ _ _ _ _ _ e h with h2 | ⟨h1, h2, h3, h4, _⟩
        · exact Or.inl h2
        · exact Or.inr ⟨h4, r, List.mem_cons_self r rs, h1, h2, h3⟩
      · exact Or.inr ⟨hk, row, List.mem_cons_of_mem r hrow, h1, h2, h3⟩
    · rw [if_neg hg] at he
      rcases ih _ e he with h | ⟨hk, row, hrow, h1, h2, h3⟩
      · exact Or.inl h
      · exact Or.inr ⟨hk, row, List.mem_cons_of_mem r hrow, h1, h2, h3⟩

/-- Every transfer-kind edge of a built graph is a non-self-loop pair from
the transfers table carrying the substituted weight. -/
theorem buildGraph_transfer_edges (stops : List StopRec) (tv : List TravelRec)
    (tf : List TransferRec) :
    ∀ e ∈ (buildGraph stops tv tf).edges, e.kind = .transfer →
      e.src ≠ e.dst ∧ ∃ r ∈ tf, e.src = r.src ∧ e.dst = r.dst ∧
        e.weight = transferWeight r.minTransferTime := by
  intro e he hk
  unfold buildGraph addTransferEdges at he
  rcases transferPhase_edge_mem _ _ e he with h | ⟨_, row, hrow, h1, h2, h3⟩
  · rcases travelPhase_edge_mem _ _ e h with h2 | h2
    · simp [stopsGraph] at h2
    · rw [hk] at h2
      exact absurd h2 (by simp)
  · obtain ⟨r, hr, hne, hroweq⟩ := (mem_transferQuery tf row).mp hrow
    subst hroweq
    refine ⟨?_, r, hr, h1, h2, h3⟩
    rw [h1, h2]
    exact hne

/-! ### Presence of travel pairs and the overwrite fold -/

theorem pair_mem_insEdgeList_self (es : List Edge) (s d : String) (w : ℤ) (k : EKind)
    (r : Option String) : (s, d) ∈ (insEdgeList es s d w k r).map pairOf := by
  rw [insEdgeList_pairs]
  by_cases hin : (s, d) ∈ es.map pairOf
  · rw [if_pos hin]
    exact hin
  · rw [if_neg hin]
    simp

theorem pair_mem_insEdgeList_mono (es : List Edge) (s d a b : String) (w : ℤ) (k : EKind)
    (r : Option String) (h : (a, b) ∈ es.map pairOf) :
    (a, b) ∈ (insEdgeList es s d w k r).map pairOf := by
  rw [insEdgeList_pairs]
  by_cases hin : (s, d) ∈ es.map pairOf
  · rw [if_pos hin]
    exact h
  · rw [if_neg hin]
    exact List.mem_append_left _ h

theorem hasPair_addEdge_self (G : Graph) (s d : String) (w : ℤ) (k : EKind) (r : Option String) :
    hasPair (addEdge G s d w k r) s d := by
  unfold hasPair
  rw [edges_addEdge]
  exact pair_mem_insEdgeList_self _ _ _ _ _ _

theorem hasPair_mono_addEdge (G : Graph) (s d a b : String) (w : ℤ) (k : EKind)
    (r : Option String) (h : hasPair G a b) : hasPair (addEdge G s d w k r) a b := by
  unfold hasPair at h ⊢
  rw [edges_addEdge]
  exact pair_mem_insEdgeList_mono _ _ _ _ _ _ _ _ h

theorem hasPair_mono_addTravelEdges (G : Graph) (tv : List TravelRec) (a b : String)
    (h : hasPair G a b) : hasPair (addTravelEdges G tv) a b := by
  induction tv generalizing G with
  | nil => exact h
  | cons r rs ih =>
    unfold addTravelEdges
    simp only [List.foldl_cons]
    exact ih _ (hasPair_mono_addEdge _ _ _ _ _ _ _ _ h)

theorem hasPair_mono_addTransferEdges (G : Graph) (tf : List TransferRec) (a b : String)
    (h : hasPair G a b) : hasPair (addTransferEdges G tf) a b := by
  unfold addTransferEdges
  generalize transferQuery tf = rows
  induction rows generalizing G with
  | nil => exact h
  | cons r rs ih =>
    simp only [List.foldl_cons]
    by_cases hg : G.hasNode r.1 ∧ G.hasNode r.2.1
    · rw [if_pos hg]
      exact ih _ (hasPair_mono_addEdge _ _ _ _ _ _ _ _ h)
    · rw [if_neg hg]
      exact ih _ h

theorem hasPair_addTravelEdges (G : Graph) (tv : List TravelRec) :
    ∀ r ∈ tv, hasPair (addTravelEdges G tv) r.src r.dst := by
  induction tv generalizing G with
  | nil => intro r hr; cases hr
  | cons q qs ih =>
    intro r hr
    unfold addTravelEdges
    simp only [List.foldl_cons]
    rcases List.mem_cons.mp hr with rfl | hr2
    · exact hasPair_mono_addTravelEdges _ _ _ _ (hasPair_addEdge_self _ _ _ _ _ _)
    · exact ih _ r hr2

theorem hasPair_elim (G : Graph) (a b : String) (h : hasPair G a b) :
    ∃ e ∈ G.edges, e.src = a ∧ e.dst = b := by
  unfold hasPair at h
  obtain ⟨e, he, hp⟩ := List.mem_map.mp h
  exact ⟨e, he, congrArg Prod.fst hp, congrArg Prod.snd hp⟩

theorem findEdge_some (G : Graph) (a b : String) (e : Edge) (h : findEdge G a b = some e) :
    e ∈ G.edges ∧ e.src = a ∧ e.dst = b := by
  unfold findEdge at h
  refine ⟨List.mem_of_find?_eq_some h, ?_⟩
  have := List.find?_some h
  simpa using this

theorem findEdge_addEdge_self (G : Graph) (s d : String) (w : ℤ) (k : EKind) (r : Option String) :
    findEdge (addEdge G s d w k r) s d =
      some (match findEdge G s d with
            | some old => updEdge old w k r
            | none => ⟨s, d, w, k, r⟩) := by
  unfold findEdge
  rw [edges_addEdge]
  exact findEdge_insEdgeList_self _ _ _ _ _ _

theorem findEdge_addEdge_other (G : Graph) (s d a b : String) (w : ℤ) (k : EKind)
    (r : Option String) (hne : ¬(s = a ∧ d = b)) :
    findEdge (addEdge G s d w k r) a b = findEdge G a b := by
  unfold findEdge
  rw [edges_addEdge]
  exact findEdge_insEdgeList_other _ _ _ _ _ _ _ _ hne

/-- Effect of the transfer phase on the stored edge of one ordered pair of
existing nodes: the last transfer row on the pair dictates weight and kind,
while the `route` attribute persists from whatever edge was stored before
the phase. -/
theorem lastWeightIn_cons (r : String × String × ℤ) (rs : List (String × String × ℤ))
    (a b : String) :
    lastWeightIn (r :: rs) a b =
      match lastWeightIn rs a b with
      | some w => some w
      | none => if r.1 = a ∧ r.2.1 = b then some r.2.2 else none := rfl

/-- Effect of the transfer phase on the stored edge of one ordered pair of
existing nodes: the last transfer row on the pair dictates weight and kind,
while the `route` attribute persists from whatever edge was stored before
the phase. -/
theorem transferFold_findEdge (rows : List (String × String × ℤ)) (G : Graph) (a b : String)
    (ha : G.hasNode a) (hb : G.hasNode b) :
    findEdge (rows.foldl
      (fun g r => if g.hasNode r.1 ∧ g.hasNode r.2.1 then addEdge g r.1 r.2.1 r.2.2 .transfer none else g)
      G) a b =
      match lastWeightIn rows a b with
      | none => findEdge G a b
      | some w => some ⟨a, b, w, .transfer, (findEdge G a b).bind Edge.route⟩ := by
  induction rows generalizing G with
  | nil => simp [lastWeightIn]
  | cons r rs ih =>
    simp only [List.foldl_cons]
    rw [lastWeightIn_cons]
    by_cases hr : r.1 = a ∧ r.2.1 = b
    · have hg : G.hasNode r.1 ∧ G.hasNode r.2.1 := by
        rw [hr.1, hr.2]
        exact ⟨ha, hb⟩
      rw [if_pos hg]
      have ha2 : (addEdge G r.1 r.2.1 r.2.2 .transfer none).hasNode a :=
        hasNode_mono_addEdge _ _ _ _ _ _ _ ha
      have hb2 : (addEdge G r.1 r.2.1 r.2.2 .transfer none).hasNode b :=
        hasNode_mono_addEdge _ _ _ _ _ _ _ hb
      rw [ih _ ha2 hb2]
      have hself : findEdge (addEdge G r.1 r.2.1 r.2.2 .transfer none) a b =
          some ⟨a, b, r.2.2, .transfer, (findEdge G a b).bind Edge.route⟩ := by
        rw [hr.1, hr.2] at *
        rw [findEdge_addEdge_self]
        cases hf : findEdge G a b with
        | none => simp
        | some old =>
          obtain ⟨_, hsrc, hdst⟩ := findEdge_some G a b old hf
          simp [updEdge, hsrc, hdst]
      cases hlast : lastWeightIn rs a b with
      | some w =>
        simp only
        rw [hself]
        simp
      | none =>
        simp only [if_pos hr]
        rw [hself]
    · by_cases hg : G.hasNode r.1 ∧ G.hasNode r.2.1
      · rw [if_pos hg]
        rw [ih _ (hasNode_mono_addEdge _ _ _ _ _ _ _ ha) (hasNode_mono_addEdge _ _ _ _ _ _ _ hb)]
        rw [findEdge_addEdge_other _ _ _ _ _ _ _ _ hr]
        cases hlast : lastWeightIn rs a b with
        | some w => simp only
        | none => simp only [if_neg hr]
      · rw [if_neg hg]
        rw [ih _ ha hb]
        cases hlast : lastWeightIn rs a b with
        | some w => simp only
        | none => simp only [if_neg hr]

/-! ### Heuristic lemmas -/

theorem radians_sub_eq (a b : ℚ) :
    radians ((b : ℝ) - (a : ℝ)) = radians (b : ℝ) - radians (a : ℝ) := by
  unfold radians
  ring

theorem cos_mul_cos_eq (a b : ℝ) :
    Real.cos a * Real.cos b = (Real.cos (a - b) + Real.cos (a + b)) / 2 := by
  rw [Real.cos_sub, Real.cos_add]
  ring

theorem sin_half_sq_eq (x : ℝ) : Real.sin (x / 2) ^ 2 = (1 - Real.cos x) / 2 := by
  have h2 : Real.cos x = 2 * Real.cos (x / 2) ^ 2 - 1 := by
    have h := Real.cos_two_mul (x / 2)
    rwa [show 2 * (x / 2) = x from by ring] at h
  have h3 := Real.sin_sq_add_cos_sq (x / 2)
  linarith

theorem havA_key (lat1 lon1 lat2 lon2 : ℚ) :
    Real.sin (radians ((lat2 : ℝ) - (lat1 : ℝ)) / 2) ^ 2 +
      Real.cos (radians (lat1 : ℝ)) * Real.cos (radians (lat2 : ℝ)) =
      (1 + Real.cos (radians (lat1 : ℝ) + radians (lat2 : ℝ))) / 2 := by
  rw [radians_sub_eq, sin_half_sq_eq, cos_mul_cos_eq,
    show radians (lat1 : ℝ) - radians (lat2 : ℝ) = -(radians (lat2 : ℝ) - radians (lat1 : ℝ)) from by ring,
    Real.cos_neg]
  ring

theorem havA_nonneg (lat1 lon1 lat2 lon2 : ℚ) : 0 ≤ havA lat1 lon1 lat2 lon2 := by
  unfold havA
  have hu : (0 : ℝ) ≤ Real.sin (radians ((lat2 : ℝ) - (lat1 : ℝ)) / 2) ^ 2 := sq_nonneg _
  have hv0 : (0 : ℝ) ≤ Real.sin (radians ((lon2 : ℝ) - (lon1 : ℝ)) / 2) ^ 2 := sq_nonneg _
  have hv1 : Real.sin (radians ((lon2 : ℝ) - (lon1 : ℝ)) / 2) ^ 2 ≤ 1 := Real.sin_sq_le_one _
  have hkey := havA_key lat1 lon1 lat2 lon2
  have hcm1 : (-1 : ℝ) ≤ Real.cos (radians (lat1 : ℝ) + radians (lat2 : ℝ)) :=
    Real.neg_one_le_cos _
  rcases le_or_lt 0 (Real.cos (radians (lat1 : ℝ)) * Real.cos (radians (lat2 : ℝ))) with hC | hC
  · exact add_nonneg hu (mul_nonneg hC hv0)
  · nlinarith [mul_nonneg (neg_nonneg.mpr hC.le) (sub_nonneg.mpr hv1)]

theorem havA_le_one (lat1 lon1 lat2 lon2 : ℚ) : havA lat1 lon1 lat2 lon2 ≤ 1 := by
  unfold havA
  have hu1 : Real.sin (radians ((lat2 : ℝ) - (lat1 : ℝ)) / 2) ^ 2 ≤ 1 := Real.sin_sq_le_one _
  have hv0 : (0 : ℝ) ≤ Real.sin (radians ((lon2 : ℝ) - (lon1 : ℝ)) / 2) ^ 2 := sq_nonneg _
  have hv1 : Real.sin (radians ((lon2 : ℝ) - (lon1 : ℝ)) / 2) ^ 2 ≤ 1 := Real.sin_sq_le_one _
  have hkey := havA_key lat1 lon1 lat2 lon2
  have hc1 : Real.cos (radians (lat1 : ℝ) + radians (lat2 : ℝ)) ≤ 1 := Real.cos_le_one _
  rcases le_or_lt 0 (Real.cos (radians (lat1 : ℝ)) * Real.cos (radians (lat2 : ℝ))) with hC | hC
  · nlinarith [mul_nonneg hC (sub_nonneg.mpr hv1)]
  · nlinarith [mul_nonneg (neg_nonneg.mpr hC.le) hv0]

theorem arctan_nonneg_of_nonneg {x : ℝ} (h : 0 ≤ x) : 0 ≤ Real.arctan x := by
  have := Real.arctan_strictMono.monotone h
  rwa [Real.arctan_zero] at this

theorem atan2_nonneg {y x : ℝ} (hy : 0 ≤ y) (hx : 0 ≤ x) : 0 ≤ atan2 y x := by
  unfold atan2
  have hy2 : ¬y < 0 := not_lt.mpr hy
  rcases lt_or_eq_of_le hx with hxp | hxe
  · rw [if_pos hxp]
    exact arctan_nonneg_of_nonneg (div_nonneg hy hxp.le)
  · rw [if_neg (by rw [← hxe]; exact lt_irrefl 0), if_neg (by rw [← hxe]; exact lt_irrefl 0)]
    by_cases hyp : 0 < y
    · rw [if_pos hyp]
      positivity
    · rw [if_neg hyp, if_neg hy2]

theorem atan2_one_zero : atan2 1 0 = Real.pi / 2 := by
  unfold atan2
  norm_num

theorem atan2_sqrt_pair {a : ℝ} (h0 : 0 ≤ a) (h1 : a ≤ 1) :
    atan2 (Real.sqrt a) (Real.sqrt (1 - a)) = Real.arcsin (Real.sqrt a) := by
  rcases eq_or_lt_of_le h1 with heq | hlt
  · subst heq
    rw [sub_self, Real.sqrt_zero, Real.sqrt_one, atan2_one_zero, Real.arcsin_one]
  · have hx : 0 < Real.sqrt (1 - a) := Real.sqrt_pos.mpr (by linarith)
    unfold atan2
    rw [if_pos hx]
    have hlt1 : Real.sqrt a < 1 := by
      have h := Real.sqrt_lt_sqrt h0 hlt
      rwa [Real.sqrt_one] at h
    have harc := @Real.arcsin_eq_arctan (Real.sqrt a)
      ⟨by linarith [Real.sqrt_nonneg a], hlt1⟩
    rw [harc, Real.sq_sqrt h0]

theorem haversine_eq_spec (lat1 lon1 lat2 lon2 : ℚ) :
    haversine lat1 lon1 lat2 lon2 = specGreatCircle lat1 lon1 lat2 lon2 := by
  unfold haversine specGreatCircle
  rw [atan2_sqrt_pair (havA_nonneg lat1 lon1 lat2 lon2) (havA_le_one lat1 lon1 lat2 lon2)]
  ring

theorem haversine_nonneg (lat1 lon1 lat2 lon2 : ℚ) : 0 ≤ haversine lat1 lon1 lat2 lon2 := by
  unfold haversine
  have h := atan2_nonneg (Real.sqrt_nonneg (havA lat1 lon1 lat2 lon2))
    (Real.sqrt_nonneg (1 - havA lat1 lon1 lat2 lon2))
  nlinarith

theorem heuristic_val_nonneg (G : Graph) (u v : String) (r : ℝ)
    (h : heuristic G u v = .val r) : 0 ≤ r := by
  unfold heuristic at h
  split at h
  · split at h
    · rename_i la1 lo1 la2 lo2 _
      cases h
      exact div_nonneg (haversine_nonneg _ _ _ _) (by norm_num)
    · cases h
  · cases h
    exact le_refl 0

theorem heuristic_zero_of_missing (G : Graph) (u v : String)
    (h : (G.attrOf u).bind NodeAttr.coords = none ∨ (G.attrOf v).bind NodeAttr.coords = none) :
    heuristic G u v = .val 0 := by
  unfold heuristic
  rcases h with h | h
  · rw [h]
  · rw [h]
    cases (G.attrOf u).bind NodeAttr.coords <;> rfl

theorem attrOf_none_of_not_hasNode (G : Graph) (x : String) (h : ¬G.hasNode x) :
    G.attrOf x = none := by
  unfold Graph.attrOf
  rw [List.find?_eq_none.mpr]
  · rfl
  · intro p hp hq
    refine h ?_
    unfold Graph.hasNode Graph.nodeIds
    rw [← of_decide_eq_true hq]
    exact List.mem_map_of_mem Prod.fst hp

theorem heuristic_zero_of_not_node (G : Graph) (u v : String)
    (h : ¬G.hasNode u ∨ ¬G.hasNode v) : heuristic G u v = .val 0 := by
  apply heuristic_zero_of_missing
  rcases h with h | h
  · left
    rw [attrOf_none_of_not_hasNode G u h]
    rfl
  · right
    rw [attrOf_none_of_not_hasNode G v h]
    rfl

/-! ### Association lists and the frontier minimum -/

theorem lookupA_setA_self {β : Type} (m : List (String × β)) (x : String) (b : β) :
    lookupA (setA m x b) x = some b := by
  induction m with
  | nil => simp [setA, lookupA]
  | cons p ps ih =>
    by_cases hp : p.1 = x
    · simp [setA, hp, lookupA]
    · simp only [setA, if_neg hp]
      unfold lookupA
      rw [List.find?_cons_of_neg _ (by simpa using hp)]
      exact ih

theorem lookupA_setA_other {β : Type} (m : List (String × β)) (x y : String) (b : β)
    (h : y ≠ x) : lookupA (setA m x b) y = lookupA m y := by
  induction m with
  | nil =>
    unfold setA lookupA
    rw [List.find?_cons_of_neg _ (by simpa using fun hc => h hc.symm), List.find?_nil]
  | cons p ps ih =>
    by_cases hp : p.1 = x
    · simp only [setA, if_pos hp]
      unfold lookupA
      rw [List.find?_cons_of_neg _ (by simpa using fun hc => h hc.symm),
        List.find?_cons_of_neg _ (by rw [hp]; simpa using fun hc => h hc.symm)]
    · simp only [setA, if_neg hp]
      by_cases hy : p.1 = y
      · unfold lookupA
        rw [List.find?_cons_of_pos _ (by simpa using hy), List.find?_cons_of_pos _ (by simpa using hy)]
      · unfold lookupA
        rw [List.find?_cons_of_neg _ (by simpa using hy), List.find?_cons_of_neg _ (by simpa using hy)]
        exact ih

theorem qLE_refl {α : Type} [LinearOrderedCommRing α] (e : QEntry α) : qLE e e :=
  Or.inr ⟨rfl, le_refl _⟩

theorem qLE_trans {α : Type} [LinearOrderedCommRing α] {a b c : QEntry α}
    (hab : qLE a b) (hbc : qLE b c) : qLE a c := by
  rcases hab with h1 | ⟨h1, h2⟩
  · rcases hbc with h3 | ⟨h3, h4⟩
    · exact Or.inl (h1.trans h3)
    · exact Or.inl (h3 ▸ h1)
  · rcases hbc with h3 | ⟨h3, h4⟩
    · exact Or.inl (h1 ▸ h3)
    · exact Or.inr ⟨h1.trans h3, h2.trans h4⟩

theorem qLE_total {α : Type} [LinearOrderedCommRing α] (a b : QEntry α) : qLE a b ∨ qLE b a := by
  rcases lt_trichotomy a.fv b.fv with h | h | h
  · exact Or.inl (Or.inl h)
  · rcases le_total a.ctr b.ctr with h2 | h2
    · exact Or.inl (Or.inr ⟨h, h2⟩)
    · exact Or.inr (Or.inr ⟨h.symm, h2⟩)
  · exact Or.inr (Or.inl h)

theorem qLE_fv {α : Type} [LinearOrderedCommRing α] {a b : QEntry α} (h : qLE a b) :
    a.fv ≤ b.fv := by
  rcases h with h | ⟨h, _⟩
  · exact h.le
  · exact h.le

theorem popMin_none_iff {α : Type} [LinearOrderedCommRing α] (q : List (QEntry α)) :
    popMin q = none ↔ q = [] := by
  cases q with
  | nil => simp [popMin]
  | cons e es =>
    simp only [popMin]
    constructor
    · intro h
      cases hrec : popMin es with
      | none => rw [hrec] at h; cases h
      | some p => rw [hrec] at h; cases p; dsimp at h; split at h <;> cases h
    · intro h
      cases h

theorem popMin_decomp {α : Type} [LinearOrderedCommRing α] {q q2 : List (QEntry α)} {e : QEntry α}
    (h : popMin q = some (e, q2)) : ∃ l1 l2, q = l1 ++ e :: l2 ∧ q2 = l1 ++ l2 := by
  induction q generalizing e q2 with
  | nil => cases h
  | cons e0 es ih =>
    simp only [popMin] at h
    cases hrec : popMin es with
    | none =>
      rw [hrec] at h
      have hes : es = [] := (popMin_none_iff es).mp hrec
      subst hes
      cases h
      exact ⟨[], [], rfl, rfl⟩
    | some p =>
      rw [hrec] at h
      obtain ⟨m, rest⟩ := p
      dsimp at h
      split at h
      · cases h
        exact ⟨[], es, rfl, rfl⟩
      · cases h
        obtain ⟨l1, l2, hq, hq2⟩ := ih hrec
        exact ⟨e0 :: l1, l2, by rw [hq]; rfl, by rw [hq2]; rfl⟩

theorem popMin_min {α : Type} [LinearOrderedCommRing α] {q q2 : List (QEntry α)} {e : QEntry α}
    (h : popMin q = some (e, q2)) : ∀ x ∈ q, qLE e x := by
  induction q generalizing e q2 with
  | nil => cases h
  | cons e0 es ih =>
    simp only [popMin] at h
    cases hrec : popMin es with
    | none =>
      rw [hrec] at h
      cases h
      rw [(popMin_none_iff es).mp hrec]
      intro x hx
      simp only [List.mem_singleton] at hx
      subst hx
      exact qLE_refl _
    | some p =>
      rw [hrec] at h
      obtain ⟨m, rest⟩ := p
      dsimp at h
      split at h
      · cases h
        rename_i hle
        intro x hx
        rcases List.mem_cons.mp hx with rfl | hx2
        · exact qLE_refl _
        · exact qLE_trans hle (ih hrec x hx2)
      · cases h
        rename_i hnle
        have hle : qLE e e0 := (qLE_total e0 e).resolve_left hnle
        intro x hx
        rcases List.mem_cons.mp hx with rfl | hx2
        · exact hle
        · exact ih hrec x hx2

theorem popMin_mem {α : Type} [LinearOrderedCommRing α] {q q2 : List (QEntry α)} {e : QEntry α}
    (h : popMin q = some (e, q2)) : e ∈ q := by
  obtain ⟨l1, l2, hq, _⟩ := popMin_decomp h
  rw [hq]
  exact List.mem_append_right _ (List.mem_cons_self _ _)

theorem popMin_rest_mem {α : Type} [LinearOrderedCommRing α] {q q2 : List (QEntry α)}
    {e x : QEntry α} (h : popMin q = some (e, q2)) (hx : x ∈ q) (hne : x ≠ e) : x ∈ q2 := by
  obtain ⟨l1, l2, hq, hq2⟩ := popMin_decomp h
  subst hq hq2
  rcases List.mem_append.mp hx with h1 | h1
  · exact List.mem_append_left _ h1
  · rcases List.mem_cons.mp h1 with rfl | h1
    · exact absurd rfl hne
    · exact List.mem_append_right _ h1

theorem popMin_length {α : Type} [LinearOrderedCommRing α] {q q2 : List (QEntry α)} {e : QEntry α}
    (h : popMin q = some (e, q2)) : q.length = q2.length + 1 := by
  obtain ⟨l1, l2, hq, hq2⟩ := popMin_decomp h
  subst hq hq2
  simp
  omega

/-! ### Walk lemmas -/

theorem GWalk.snoc {G : Graph} {x y : String} {c : ℤ} (hw : GWalk G x y c) (e : Edge)
    (he : e ∈ G.edges) (hsrc : e.src = y) : GWalk G x e.dst (c + e.weight) := by
  induction hw with
  | nil z =>
    have h := GWalk.cons e he hsrc (GWalk.nil e.dst)
    simpa using h
  | cons e0 he0 hs0 tail ih =>
    have h := GWalk.cons e0 he0 hs0 (ih hsrc)
    rw [show e0.weight + (_ + e.weight) = e0.weight + _ + e.weight from (add_assoc _ _ _).symm] at h
    exact h

theorem GWalk.nonneg {G : Graph} (hW : WeightsNonneg G) {x y : String} {c : ℤ}
    (hw : GWalk G x y c) : 0 ≤ c := by
  induction hw with
  | nil => exact le_refl 0
  | cons e he hs tail ih => exact add_nonneg (hW e he) ih

theorem consistent_telescope {α : Type} [LinearOrderedCommRing α] {G : Graph} {h : String → α}
    (hC : Consistent G h) {x y : String} {c : ℤ} (hw : GWalk G x y c) :
    h x ≤ (c : α) + h y := by
  induction hw with
  | nil z => simp
  | cons e he hs tail ih =>
    have h1 := hC e he
    rw [hs] at h1
    push_cast
    linarith [ih]

/-! ### Structural lemmas on relaxation -/

theorem relaxEdge_spec {α : Type} [LinearOrderedCommRing α] (h : String → α) (src : String)
    (gsrc : α) (st : SState α) (e : Edge) :
    ((∃ gd, lookupA st.gmap e.dst = some gd ∧ gsrc + (e.weight : α) ≥ gd) ∧
      relaxEdge h src gsrc st e = st) ∨
    ((∀ gd, lookupA st.gmap e.dst = some gd → gsrc + (e.weight : α) < gd) ∧
      relaxEdge h src gsrc st e =
        ⟨st.queue ++ [⟨gsrc + (e.weight : α) + h e.dst, st.ctr, e.dst⟩],
          setA st.gmap e.dst (gsrc + (e.weight : α)), setA st.pred e.dst src,
          st.finalized, st.ctr + 1⟩) := by
  unfold relaxEdge
  cases hl : lookupA st.gmap e.dst with
  | none =>
    right
    refine ⟨?_, rfl⟩
    intro gd hgd
    cases hgd
  | some gd =>
    dsimp only
    by_cases hlt : gsrc + (e.weight : α) < gd
    · rw [if_pos hlt]
      right
      refine ⟨?_, rfl⟩
      intro gd2 hgd2
      cases hgd2
      exact hlt
    · rw [if_neg hlt]
      exact Or.inl ⟨⟨gd, rfl, not_lt.mp hlt⟩, rfl⟩

theorem relaxEdge_finalized {α : Type} [LinearOrderedCommRing α] (h : String → α) (src : String)
    (gsrc : α) (st : SState α) (e : Edge) :
    (relaxEdge h src gsrc st e).finalized = st.finalized := by
  rcases relaxEdge_spec h src gsrc st e with ⟨_, heq⟩ | ⟨_, heq⟩ <;> rw [heq]

theorem relaxEdge_queue_mono {α : Type} [LinearOrderedCommRing α] {h : String → α} {src : String}
    {gsrc : α} {st : SState α} {e : Edge} {x : QEntry α} (hx : x ∈ st.queue) :
    x ∈ (relaxEdge h src gsrc st e).queue := by
  rcases relaxEdge_spec h src gsrc st e with ⟨_, heq⟩ | ⟨_, heq⟩ <;> rw [heq]
  · exact hx
  · exact List.mem_append_left _ hx

theorem relaxEdge_queue_len {α : Type} [LinearOrderedCommRing α] (h : String → α) (src : String)
    (gsrc : α) (st : SState α) (e : Edge) :
    (relaxEdge h src gsrc st e).queue.length ≤ st.queue.length + 1 := by
  rcases relaxEdge_spec h src gsrc st e with ⟨_, heq⟩ | ⟨_, heq⟩ <;> rw [heq]
  · exact Nat.le_succ _
  · simp

theorem relaxEdge_gmap_mono {α : Type} [LinearOrderedCommRing α] {h : String → α} {src : String}
    {gsrc : α} {st : SState α} {e : Edge} {x : String} {gx : α}
    (hx : lookupA st.gmap x = some gx) :
    ∃ gy, lookupA (relaxEdge h src gsrc st e).gmap x = some gy ∧ gy ≤ gx := by
  rcases relaxEdge_spec h src gsrc st e with ⟨_, heq⟩ | ⟨hlt, heq⟩ <;> rw [heq]
  · exact ⟨gx, hx, le_refl _⟩
  · by_cases hd : x = e.dst
    · subst hd
      refine ⟨gsrc + (e.weight : α), ?_, (hlt gx hx).le⟩
      exact lookupA_setA_self _ _ _
    · refine ⟨gx, ?_, le_refl _⟩
      rw [lookupA_setA_other _ _ _ _ hd]
      exact hx

theorem relaxEdge_gmap_present {α : Type} [LinearOrderedCommRing α] {h : String → α}
    {src : String} {gsrc : α} {st : SState α} {e : Edge} {x : String}
    (hx : ∃ g, lookupA st.gmap x = some g) :
    ∃ g, lookupA (relaxEdge h src gsrc st e).gmap x = some g := by
  obtain ⟨gx, hgx⟩ := hx
  obtain ⟨gy, hgy, _⟩ := @relaxEdge_gmap_mono α _ h src gsrc st e x gx hgx
  exact ⟨gy, hgy⟩

theorem foldl_relax_pres {α : Type} [LinearOrderedCommRing α] (h : String → α) (src : String)
    (gsrc : α) (P : SState α → Prop) :
    ∀ l : List Edge, (∀ st e, e ∈ l → P st → P (relaxEdge h src gsrc st e)) →
      ∀ st, P st → P (l.foldl (relaxEdge h src gsrc) st) := by
  intro l
  induction l with
  | nil => intro _ st hst; exact hst
  | cons a as ih =>
    intro hstep st hst
    simp only [List.foldl_cons]
    exact ih (fun st2 e he => hstep st2 e (List.mem_cons_of_mem a he)) _
      (hstep st a (List.mem_cons_self a as) hst)

theorem foldl_relax_establish {α : Type} [LinearOrderedCommRing α] (h : String → α) (src : String)
    (gsrc : α) (Q : Edge → SState α → Prop) :
    ∀ l : List Edge, (∀ st e, e ∈ l → Q e (relaxEdge h src gsrc st e)) →
      (∀ st e e2, e ∈ l → Q e2 st → Q e2 (relaxEdge h src gsrc st e)) →
      ∀ st, ∀ e ∈ l, Q e (l.foldl (relaxEdge h src gsrc) st) := by
  intro l
  induction l with
  | nil => intro _ _ _ e he; cases he
  | cons a as ih =>
    intro hest hpres st e he
    simp only [List.foldl_cons]
    rcases List.mem_cons.mp he with rfl | he2
    · exact foldl_relax_pres h src gsrc (Q e) as
        (fun st2 e2 he2 => hpres st2 e2 e (List.mem_cons_of_mem e he2)) _
        (hest st e (List.mem_cons_self e as))
    · exact ih (fun st2 e2 he3 => hest st2 e2 (List.mem_cons_of_mem a he3))
        (fun st2 e2 e3 he3 => hpres st2 e2 e3 (List.mem_cons_of_mem a he3)) _ e he2

theorem expand_finalized {α : Type} [LinearOrderedCommRing α] (G : Graph) (h : String → α)
    (v : String) (gv : α) (st : SState α) :
    (expand G h v gv st).finalized = st.finalized := by
  unfold expand
  generalize G.outEdges v = l
  induction l generalizing st with
  | nil => rfl
  | cons a as ih =>
    simp only [List.foldl_cons]
    rw [ih, relaxEdge_finalized]

theorem expand_queue_len {α : Type} [LinearOrderedCommRing α] (G : Graph) (h : String → α)
    (v : String) (gv : α) (st : SState α) :
    (expand G h v gv st).queue.length ≤ st.queue.length + (G.outEdges v).length := by
  unfold expand
  generalize G.outEdges v = l
  induction l generalizing st with
  | nil => exact le_refl _
  | cons a as ih =>
    simp only [List.foldl_cons, List.length_cons]
    calc (as.foldl (relaxEdge h v gv) (relaxEdge h v gv st a)).queue.length
        ≤ (relaxEdge h v gv st a).queue.length + as.length := ih _
      _ ≤ st.queue.length + 1 + as.length := by
          have := relaxEdge_queue_len h v gv st a
          omega
      _ = st.queue.length + (as.length + 1) := by omega

theorem mem_outEdges {G : Graph} {v : String} {e : Edge} (he : e ∈ G.outEdges v) :
    e ∈ G.edges ∧ e.src = v := by
  unfold Graph.outEdges at he
  have h := List.mem_filter.mp he
  exact ⟨h.1, by simpa using h.2⟩

theorem mem_outEdges_of {G : Graph} {v : String} {e : Edge} (he : e ∈ G.edges)
    (hs : e.src = v) : e ∈ G.outEdges v := by
  unfold Graph.outEdges
  exact List.mem_filter.mpr ⟨he, by simpa using hs⟩

/-! ### The termination potential -/

theorem sum_filter_mono (l : List String) (p q : String → Bool) (f : String → ℕ)
    (himp : ∀ x, p x = true → q x = true) :
    ((l.filter p).map f).sum ≤ ((l.filter q).map f).sum := by
  induction l with
  | nil => exact le_refl 0
  | cons a as ih =>
    by_cases hp : p a = true
    · rw [List.filter_cons_of_pos hp, List.filter_cons_of_pos (himp a hp)]
      simpa using ih
    · rw [List.filter_cons_of_neg (by simpa using hp)]
      by_cases hq : q a = true
      · rw [List.filter_cons_of_pos hq]
        simp only [List.map_cons, List.sum_cons]
        omega
      · rw [List.filter_cons_of_neg (by simpa using hq)]
        exact ih

theorem sum_filter_finalize (l : List String) (v : String) (fin : List String)
    (f : String → ℕ) (hv : v ∈ l) (hnf : v ∉ fin) :
    ((l.filter fun x => x ∉ v :: fin).map f).sum + f v ≤
      ((l.filter fun x => x ∉ fin).map f).sum := by
  induction l with
  | nil => cases hv
  | cons a as ih =>
    by_cases hav : a = v
    · subst hav
      rw [List.filter_cons_of_neg (by simp), List.filter_cons_of_pos (by simpa using hnf)]
      simp only [List.map_cons, List.sum_cons]
      have hmono := sum_filter_mono as (fun x => decide (x ∉ a :: fin))
        (fun x => decide (x ∉ fin)) f
        (fun x hx => by
          simp only [decide_eq_true_eq] at hx ⊢
          exact fun hc => hx (List.mem_cons_of_mem a hc))
      omega
    · have hva : v ∈ as := by
        rcases List.mem_cons.mp hv with h | h
        · exact absurd h.symm hav
        · exact h
      by_cases haf : a ∈ fin
      · rw [List.filter_cons_of_neg
          (by simpa using fun hc : ¬(a = v ∨ a ∈ fin) => hc (Or.inr haf)),
          List.filter_cons_of_neg (by simpa using haf)]
        exact ih hva
      · have h1 : a ∉ v :: fin := by
          intro hc
          rcases List.mem_cons.mp hc with h | h
          · exact hav h
          · exact haf h
        rw [List.filter_cons_of_pos (by simpa using h1),
          List.filter_cons_of_pos (by simpa using haf)]
        simp only [List.map_cons, List.sum_cons]
        have := ih hva
        omega

theorem potential_skip {α : Type} (G : Graph) (st : SState α) (q2 : List (QEntry α))
    (hlen : st.queue.length = q2.length + 1) :
    potential G { st with queue := q2 } + 1 = potential G st := by
  unfold potential
  simp only
  omega

theorem potential_finalize {α : Type} [LinearOrderedCommRing α] (G : Graph) (h : String → α)
    (st : SState α) (q2 : List (QEntry α)) (v : String) (gn : α)
    (hlen : st.queue.length = q2.length + 1) (hvnode : G.hasNode v) (hvfin : v ∉ st.finalized) :
    potential G (expand G h v gn ⟨q2, st.gmap, st.pred, v :: st.finalized, st.ctr⟩) <
      potential G st := by
  have hql := expand_queue_len G h v gn ⟨q2, st.gmap, st.pred, v :: st.finalized, st.ctr⟩
  have hfin := expand_finalized G h v gn ⟨q2, st.gmap, st.pred, v :: st.finalized, st.ctr⟩
  have hvd : v ∈ G.nodeIds.dedup := List.mem_dedup.mpr hvnode
  have hsum := sum_filter_finalize G.nodeIds.dedup v st.finalized
    (fun x => 1 + (G.outEdges x).length) hvd hvfin
  unfold potential
  rw [hfin]
  simp only at hql hsum ⊢
  omega

/-! ### Preservation of the structural invariant -/

theorem invL_skip {α : Type} [LinearOrderedCommRing α] {G : Graph} {s t : String}
    {st : SState α} {e : QEntry α} {q2 : List (QEntry α)} (inv : InvL G s t [] st)
    (hpop : popMin st.queue = some (e, q2)) (hfin : e.node ∈ st.finalized) :
    InvL G s t [] { st with queue := q2 } := by
  have hsub : ∀ x ∈ q2, x ∈ st.queue := by
    obtain ⟨l1, l2, hq, hq2⟩ := popMin_decomp hpop
    intro x hx
    rw [hq]
    rw [hq2] at hx
    rcases List.mem_append.mp hx with h | h
    · exact List.mem_append_left _ h
    · exact List.mem_append_right _ (List.mem_cons_of_mem _ h)
  refine ⟨fun e2 he2 => inv.qsub e2 (hsub e2 he2), ?_, inv.greach, inv.sing,
    fun e2 he2 => inv.qnode e2 (hsub e2 he2), inv.fnode, inv.fdup, inv.tfree, inv.fing,
    fun x hx _ => inv.fclosed x hx (by simp)⟩
  intro x g hg
  rcases inv.gsub x g hg with ⟨e3, he3, hn3⟩ | hf
  · by_cases he3e : e3 = e
    · subst he3e
      right
      rw [← hn3]
      exact hfin
    · exact Or.inl ⟨e3, popMin_rest_mem hpop he3 he3e, hn3⟩
  · exact Or.inr hf

theorem invL_finalize {α : Type} [LinearOrderedCommRing α] {G : Graph} {s t : String}
    {st : SState α} {e : QEntry α} {q2 : List (QEntry α)} (inv : InvL G s t [] st)
    (hpop : popMin st.queue = some (e, q2)) (hfin : e.node ∉ st.finalized)
    (hnet : e.node ≠ t) :
    InvL G s t [e.node] ⟨q2, st.gmap, st.pred, e.node :: st.finalized, st.ctr⟩ := by
  have hsub : ∀ x ∈ q2, x ∈ st.queue := by
    obtain ⟨l1, l2, hq, hq2⟩ := popMin_decomp hpop
    intro x hx
    rw [hq]
    rw [hq2] at hx
    rcases List.mem_append.mp hx with h | h
    · exact List.mem_append_left _ h
    · exact List.mem_append_right _ (List.mem_cons_of_mem _ h)
  refine ⟨fun e2 he2 => inv.qsub e2 (hsub e2 he2), ?_, inv.greach, inv.sing,
    fun e2 he2 => inv.qnode e2 (hsub e2 he2), ?_, ?_, ?_, ?_, ?_⟩
  · intro x g hg
    rcases inv.gsub x g hg with ⟨e3, he3, hn3⟩ | hf
    · by_cases he3e : e3 = e
      · subst he3e
        right
        rw [hn3]
        exact List.mem_cons_self _ _
      · exact Or.inl ⟨e3, popMin_rest_mem hpop he3 he3e, hn3⟩
    · exact Or.inr (List.mem_cons_of_mem _ hf)
  · intro x hx
    rcases List.mem_cons.mp hx with rfl | hx2
    · exact inv.qnode e (popMin_mem hpop)
    · exact inv.fnode x hx2
  · exact List.nodup_cons.mpr ⟨hfin, inv.fdup⟩
  · intro hc
    rcases List.mem_cons.mp hc with h | h
    · exact hnet h.symm
    · exact inv.tfree h
  · intro x hx
    rcases List.mem_cons.mp hx with rfl | hx2
    · exact inv.qsub e (popMin_mem hpop)
    · exact inv.fing x hx2
  · intro x hx hxX e2 he2
    rcases List.mem_cons.mp hx with rfl | hx2
    · exact absurd (List.mem_singleton.mpr rfl) hxX
    · exact inv.fclosed x hx2 (by simp) e2 he2

theorem relax_invL {α : Type} [LinearOrderedCommRing α] {G : Graph} {hfun : String → α}
    {s t v : String} {gv : α} (hE : EdgesClosed G) {st : SState α} {e : Edge}
    (he : e ∈ G.edges) (hsrc : e.src = v) (hreach : Reachable G s v)
    (inv : InvL G s t [v] st) : InvL G s t [v] (relaxEdge hfun v gv st e) := by
  rcases relaxEdge_spec hfun v gv st e with ⟨_, heq⟩ | ⟨hlt, heq⟩
  · rw [heq]
    exact inv
  · rw [heq]
    refine ⟨?_, ?_, ?_, ?_, ?_, inv.fnode, inv.fdup, inv.tfree, ?_, ?_⟩
    · intro e2 he2
      rcases List.mem_append.mp he2 with h | h
      · obtain ⟨g, hg⟩ := inv.qsub e2 h
        by_cases hd : e2.node = e.dst
        · rw [hd]
          exact ⟨_, lookupA_setA_self _ _ _⟩
        · rw [lookupA_setA_other _ _ _ _ hd]
          exact ⟨g, hg⟩
      · rw [List.mem_singleton.mp h]
        exact ⟨_, lookupA_setA_self _ _ _⟩
    · intro x g hg
      by_cases hd : x = e.dst
      · subst hd
        exact Or.inl ⟨_, List.mem_append_right _ (List.mem_singleton.mpr rfl), rfl⟩
      · rw [lookupA_setA_other _ _ _ _ hd] at hg
        rcases inv.gsub x g hg with ⟨e3, he3, hn3⟩ | hf
        · exact Or.inl ⟨e3, List.mem_append_left _ he3, hn3⟩
        · exact Or.inr hf
    · intro x g hg
      by_cases hd : x = e.dst
      · subst hd
        obtain ⟨c, hc⟩ := hreach
        exact ⟨c + e.weight, hc.snoc e he hsrc⟩
      · rw [lookupA_setA_other _ _ _ _ hd] at hg
        exact inv.greach x g hg
    · obtain ⟨g, hg⟩ := inv.sing
      by_cases hd : s = e.dst
      · rw [hd]
        exact ⟨_, lookupA_setA_self _ _ _⟩
      · rw [lookupA_setA_other _ _ _ _ hd]
        exact ⟨g, hg⟩
    · intro e2 he2
      rcases List.mem_append.mp he2 with h | h
      · exact inv.qnode e2 h
      · rw [List.mem_singleton.mp h]
        exact (hE e he).2
    · intro x hx
      obtain ⟨g, hg⟩ := inv.fing x hx
      by_cases hd : x = e.dst
      · rw [hd]
        exact ⟨_, lookupA_setA_self _ _ _⟩
      · rw [lookupA_setA_other _ _ _ _ hd]
        exact ⟨g, hg⟩
    · intro x hx hxX e2 he2
      obtain ⟨g, hg⟩ := inv.fclosed x hx hxX e2 he2
      by_cases hd : e2.dst = e.dst
      · rw [hd]
        exact ⟨_, lookupA_setA_self _ _ _⟩
      · rw [lookupA_setA_other _ _ _ _ hd]
        exact ⟨g, hg⟩

theorem expand_invL {α : Type} [LinearOrderedCommRing α] {G : Graph} {hfun : String → α}
    {s t v : String} {gv : α} (hE : EdgesClosed G) (hreach : Reachable G s v)
    {st : SState α} (hvf : v ∈ st.finalized) (inv : InvL G s t [v] st) :
    InvL G s t [] (expand G hfun v gv st) := by
  have hpres : InvL G s t [v] (expand G hfun v gv st) := by
    unfold expand
    refine foldl_relax_pres hfun v gv (InvL G s t [v]) _ ?_ st inv
    intro st2 e he2 hinv
    obtain ⟨hmem, hsrc⟩ := mem_outEdges he2
    exact relax_invL hE hmem hsrc hreach hinv
  have hest : ∀ e ∈ G.outEdges v, ∃ g, lookupA (expand G hfun v gv st).gmap e.dst = some g := by
    unfold expand
    refine foldl_relax_establish hfun v gv
      (fun e st2 => ∃ g, lookupA st2.gmap e.dst = some g) _ ?_ ?_ st
    · intro st2 e _
      rcases relaxEdge_spec hfun v gv st2 e with ⟨⟨gd, hgd, _⟩, heq⟩ | ⟨_, heq⟩ <;> rw [heq]
      · exact ⟨gd, hgd⟩
      · exact ⟨_, lookupA_setA_self _ _ _⟩
    · intro st2 e e2 _ hq
      exact relaxEdge_gmap_present hq
  have hfin := expand_finalized G hfun v gv st
  refine ⟨hpres.qsub, hpres.gsub, hpres.greach, hpres.sing, hpres.qnode, hpres.fnode,
    hpres.fdup, hpres.tfree, hpres.fing, ?_⟩
  intro x hx _ e2 he2
  by_cases hxv : x = v
  · subst hxv
    exact hest e2 he2
  · exact hpres.fclosed x hx (by simpa using hxv) e2 he2

/-! ### The search loop on unreachable destinations -/

theorem astarLoop_unreach {α : Type} [LinearOrderedCommRing α] (G : Graph) (hfun : String → α)
    (s t : String) (hE : EdgesClosed G) :
    ∀ n (st : SState α), InvL G s t [] st → potential G st < n → ¬Reachable G s t →
      astarLoop G hfun s t n st = .noPath := by
  intro n
  induction n with
  | zero =>
    intro st _ hp _
    exact absurd hp (Nat.not_lt_zero _)
  | succ n ih =>
    intro st inv hp hur
    show (match astarStep G hfun s t st with
          | .halt r => r
          | .go st2 => astarLoop G hfun s t n st2) = .noPath
    unfold astarStep
    cases hpop : popMin st.queue with
    | none => rfl
    | some pr =>
      obtain ⟨e, q2⟩ := pr
      obtain ⟨gn, hgn⟩ := inv.qsub e (popMin_mem hpop)
      have hre := inv.greach e.node gn hgn
      have hnet : ¬(e.node = t) := fun hc => hur (hc ▸ hre)
      dsimp only
      rw [if_neg hnet]
      by_cases hfin : e.node ∈ st.finalized
      · rw [if_pos hfin]
        have hpre := invL_skip inv hpop hfin
        have hpot := potential_skip G st q2 (popMin_length hpop)
        exact ih _ hpre (by omega) hur
      · rw [if_neg hfin]
        rw [hgn]
        have hpre := @expand_invL α _ G hfun s t e.node gn hE hre
          ⟨q2, st.gmap, st.pred, e.node :: st.finalized, st.ctr⟩
          (List.mem_cons_self _ _) (invL_finalize inv hpop hfin hnet)
        have hpot := potential_finalize G hfun st q2 e.node gn (popMin_length hpop)
          (inv.qnode e (popMin_mem hpop)) hfin
        exact ih _ hpre (by omega) hur

/-! ### Preservation of the full invariant -/

theorem find_pair_of_nodup (l : List Edge) (hPN : (l.map pairOf).Nodup) {e : Edge}
    (he : e ∈ l) : l.find? (fun x => x.src = e.src ∧ x.dst = e.dst) = some e := by
  induction l with
  | nil => cases he
  | cons a as ih =>
    rcases List.mem_cons.mp he with rfl | he2
    · rw [List.find?_cons_of_pos _ (by simp)]
    · simp only [List.map_cons, List.nodup_cons] at hPN
      have hne : ¬(a.src = e.src ∧ a.dst = e.dst) := by
        intro hc
        refine hPN.1 ?_
        have hpe : pairOf a = pairOf e := by
          unfold pairOf
          rw [hc.1, hc.2]
        rw [hpe]
        exact List.mem_map_of_mem pairOf he2
      rw [List.find?_cons_of_neg _ (by simpa using hne)]
      exact ih hPN.2 he2

theorem findEdge_eq_of_pairsNodup {G : Graph} (hPN : PairsNodup G) {e : Edge}
    (he : e ∈ G.edges) : findEdge G e.src e.dst = some e :=
  find_pair_of_nodup G.edges hPN he

theorem edgeWeight_of_mem {G : Graph} (hPN : PairsNodup G) {e : Edge} (he : e ∈ G.edges) :
    edgeWeight G e.src e.dst = some e.weight := by
  unfold edgeWeight
  rw [findEdge_eq_of_pairsNodup hPN he]
  rfl

theorem invC_skip {α : Type} [LinearOrderedCommRing α] {G : Graph} {hfun : String → α}
    {s t : String} {st : SState α} {e : QEntry α} {q2 : List (QEntry α)}
    (inv : InvC G hfun s t [] st) (hpop : popMin st.queue = some (e, q2))
    (hfin : e.node ∈ st.finalized) : InvC G hfun s t [] { st with queue := q2 } := by
  refine ⟨invL_skip inv.toInvL hpop hfin, inv.gwalk, inv.fexact, inv.frelax, ?_, ?_,
    inv.szero, inv.chain⟩
  · intro e2 he2 g hg
    obtain ⟨l1, l2, hq, hq2⟩ := popMin_decomp hpop
    refine inv.qle e2 ?_ g hg
    rw [hq]
    rw [hq2] at he2
    rcases List.mem_append.mp he2 with h | h
    · exact List.mem_append_left _ h
    · exact List.mem_append_right _ (List.mem_cons_of_mem _ h)
  · intro x g hg hxf
    obtain ⟨e2, he2, hn2, hfv⟩ := inv.fresh x g hg hxf
    have hne : e2 ≠ e := by
      intro hc
      rw [hc] at hn2
      exact hxf (hn2 ▸ hfin)
    exact ⟨e2, popMin_rest_mem hpop he2 hne, hn2, hfv⟩

theorem inv_crossing {α : Type} [LinearOrderedCommRing α] {G : Graph} {hfun : String → α}
    {s t : String} {st : SState α} (inv : InvC G hfun s t [] st) (hC : Consistent G hfun) :
    ∀ {x z : String} {c : ℤ}, GWalk G x z c → x ∈ st.finalized → z ∉ st.finalized →
      ∀ gx, lookupA st.gmap x = some gx →
        ∃ e2 ∈ st.queue, QEntry.fv e2 ≤ gx + (c : α) + hfun z := by
  intro x z c hw
  induction hw with
  | nil y =>
    intro hy hyn _ _
    exact absurd hy hyn
  | cons e he hs tail ih =>
    intro hx hz gx hgx
    have hout := mem_outEdges_of he hs
    obtain ⟨gd, hgd, hle⟩ := inv.frelax _ hx (by simp) gx hgx e hout
    by_cases hdf : e.dst ∈ st.finalized
    · obtain ⟨e2, he2, hfv⟩ := ih hdf hz gd hgd
      refine ⟨e2, he2, ?_⟩
      push_cast
      push_cast at hfv
      linarith
    · obtain ⟨e2, he2, hn2, hfv⟩ := inv.fresh e.dst gd hgd hdf
      have htel := consistent_telescope hC tail
      refine ⟨e2, he2, ?_⟩
      push_cast
      linarith

theorem inv_cover {α : Type} [LinearOrderedCommRing α] {G : Graph} {hfun : String → α}
    {s t : String} {st : SState α} (inv : InvC G hfun s t [] st) (hC : Consistent G hfun)
    {v : String} (hv : v ∉ st.finalized) {c : ℤ} (hw : GWalk G s v c) :
    ∃ e2 ∈ st.queue, QEntry.fv e2 ≤ (c : α) + hfun v := by
  by_cases hsf : s ∈ st.finalized
  · obtain ⟨e2, he2, hfv⟩ := inv_crossing inv hC hw hsf hv 0 inv.szero
    refine ⟨e2, he2, ?_⟩
    simpa using hfv
  · obtain ⟨e2, he2, hn2, hfv⟩ := inv.fresh s 0 inv.szero hsf
    have htel := consistent_telescope hC hw
    refine ⟨e2, he2, ?_⟩
    linarith

theorem popped_shortest {α : Type} [LinearOrderedCommRing α] {G : Graph} {hfun : String → α}
    {s t : String} {st : SState α} (inv : InvC G hfun s t [] st) (hC : Consistent G hfun)
    {e : QEntry α} {q2 : List (QEntry α)} (hpop : popMin st.queue = some (e, q2))
    (hnf : e.node ∉ st.finalized) {gv : α} (hgv : lookupA st.gmap e.node = some gv) :
    ∀ c : ℤ, GWalk G s e.node c → gv ≤ (c : α) := by
  intro c hw
  obtain ⟨e2, he2, hfv⟩ := inv_cover inv hC hnf hw
  have hmin := qLE_fv (popMin_min hpop e2 he2)
  have hqle := inv.qle e (popMin_mem hpop) gv hgv
  linarith

theorem invC_finalize {α : Type} [LinearOrderedCommRing α] {G : Graph} {hfun : String → α}
    {s t : String} {st : SState α} {e : QEntry α} {q2 : List (QEntry α)}
    (inv : InvC G hfun s t [] st) (hC : Consistent G hfun)
    (hpop : popMin st.queue = some (e, q2)) (hfin : e.node ∉ st.finalized)
    (hnet : e.node ≠ t) :
    InvC G hfun s t [e.node] ⟨q2, st.gmap, st.pred, e.node :: st.finalized, st.ctr⟩ := by
  have hsub : ∀ x ∈ q2, x ∈ st.queue := by
    obtain ⟨l1, l2, hq, hq2⟩ := popMin_decomp hpop
    intro x hx
    rw [hq]
    rw [hq2] at hx
    rcases List.mem_append.mp hx with h | h
    · exact List.mem_append_left _ h
    · exact List.mem_append_right _ (List.mem_cons_of_mem _ h)
  refine ⟨invL_finalize inv.toInvL hpop hfin hnet, inv.gwalk, ?_, ?_, ?_, ?_, inv.szero, ?_⟩
  · intro x hx g hg c hw
    rcases List.mem_cons.mp hx with rfl | hx2
    · exact popped_shortest inv hC hpop hfin hg c hw
    · exact inv.fexact x hx2 g hg c hw
  · intro x hx hxX gx hgx e2 he2
    rcases List.mem_cons.mp hx with rfl | hx2
    · exact absurd (List.mem_singleton.mpr rfl) hxX
    · exact inv.frelax x hx2 (by simp) gx hgx e2 he2
  · intro e2 he2 g hg
    exact inv.qle e2 (hsub e2 he2) g hg
  · intro x g hg hxf
    have hxf2 : x ∉ st.finalized := fun hc => hxf (List.mem_cons_of_mem _ hc)
    have hxe : x ≠ e.node := fun hc => hxf (hc ▸ List.mem_cons_self _ _)
    obtain ⟨e2, he2, hn2, hfv⟩ := inv.fresh x g hg hxf2
    have hne : e2 ≠ e := by
      intro hc
      rw [hc] at hn2
      exact hxe hn2.symm
    exact ⟨e2, popMin_rest_mem hpop he2 hne, hn2, hfv⟩
  · intro x g hg hxs
    obtain ⟨p, w, gp, hpred, hgp, hwt, heq, l1, l2, hdec, hcond⟩ := inv.chain x g hg hxs
    refine ⟨p, w, gp, hpred, hgp, hwt, heq, e.node :: l1, l2, by rw [hdec]; rfl, ?_⟩
    intro m1 m2 hm
    cases m1 with
    | nil =>
      simp only [List.nil_append] at hm
      injection hm with h1 h2
      rw [← h2, hdec]
      exact List.mem_append_right _ (List.mem_cons_self _ _)
    | cons y m1b =>
      injection hm with h1 h2
      exact hcond m1b m2 h2

theorem relax_invC {α : Type} [LinearOrderedCommRing α] {G : Graph} {hfun : String → α}
    {s t v : String} {gv : α} (hE : EdgesClosed G) (hW : WeightsNonneg G) (hPN : PairsNodup G)
    {e : Edge} (he : e ∈ G.edges) (hsrc : e.src = v) {cv : ℤ} (hwv : GWalk G s v cv)
    (hgvc : gv = (cv : α)) {st : SState α} (inv : InvC G hfun s t [v] st)
    (hvf : v ∈ st.finalized) (hgv : lookupA st.gmap v = some gv) :
    InvC G hfun s t [v] (relaxEdge hfun v gv st e) ∧
      v ∈ (relaxEdge hfun v gv st e).finalized ∧
      lookupA (relaxEdge hfun v gv st e).gmap v = some gv := by
  have hL := @relax_invL α _ G hfun s t v gv hE st e he hsrc ⟨cv, hwv⟩ inv.toInvL
  rcases relaxEdge_spec hfun v gv st e with ⟨_, heq⟩ | ⟨hlt, heq⟩
  · rw [heq]
    rw [heq] at hL
    exact ⟨⟨hL, inv.gwalk, inv.fexact, inv.frelax, inv.qle, inv.fresh, inv.szero, inv.chain⟩,
      hvf, hgv⟩
  · have hwd : GWalk G s e.dst (cv + e.weight) := hwv.snoc e he hsrc
    have hcast : gv + (e.weight : α) = ((cv + e.weight : ℤ) : α) := by
      rw [hgvc]
      push_cast
      ring
    have hdnf : e.dst ∉ st.finalized := by
      intro hdf
      obtain ⟨gd, hgd⟩ := inv.fing e.dst hdf
      have h1 := hlt gd hgd
      have h2 := inv.fexact e.dst hdf gd hgd (cv + e.weight) hwd
      rw [hcast] at h1
      linarith
    have hds : e.dst ≠ s := by
      intro hdseq
      have h1 := hlt 0 (hdseq ▸ inv.szero)
      have h0 : (0 : α) ≤ ((cv + e.weight : ℤ) : α) := by
        exact_mod_cast GWalk.nonneg hW hwd
      rw [hcast] at h1
      linarith
    have hdv : e.dst ≠ v := fun hc => hdnf (hc ▸ hvf)
    rw [heq]
    rw [heq] at hL
    refine ⟨⟨hL, ?_, ?_, ?_, ?_, ?_, ?_, ?_⟩, hvf, ?_⟩
    · intro x g hg
      by_cases hx : x = e.dst
      · subst hx
        rw [lookupA_setA_self] at hg
        injection hg with hg2
        exact ⟨cv + e.weight, hwd, by rw [← hg2, hcast]⟩
      · rw [lookupA_setA_other _ _ _ _ hx] at hg
        exact inv.gwalk x g hg
    · intro x hx g hg c hw
      have hxd : x ≠ e.dst := fun hc => hdnf (hc ▸ hx)
      rw [lookupA_setA_other _ _ _ _ hxd] at hg
      exact inv.fexact x hx g hg c hw
    · intro x hx hxX gx hgx e2 he2
      have hxd : x ≠ e.dst := fun hc => hdnf (hc ▸ hx)
      rw [lookupA_setA_other _ _ _ _ hxd] at hgx
      obtain ⟨gd2, hgd2, hle2⟩ := inv.frelax x hx hxX gx hgx e2 he2
      by_cases hdd : e2.dst = e.dst
      · rw [hdd] at hgd2
        have hlt2 := hlt gd2 hgd2
        rw [hdd]
        exact ⟨gv + (e.weight : α), lookupA_setA_self _ _ _, hlt2.le.trans hle2⟩
      · rw [lookupA_setA_other _ _ _ _ hdd]
        exact ⟨gd2, hgd2, hle2⟩
    · intro e2 he2 g hg
      rcases List.mem_append.mp he2 with h2 | h2
      · by_cases hnd : e2.node = e.dst
        · obtain ⟨gd0, hgd0⟩ := inv.qsub e2 h2
          have hlt0 := hlt gd0 (hnd ▸ hgd0)
          have hqle0 := inv.qle e2 h2 gd0 hgd0
          rw [hnd] at hg
          rw [lookupA_setA_self] at hg
          injection hg with hg2
          rw [← hg2]
          linarith [hqle0, hlt0]
        · rw [lookupA_setA_other _ _ _ _ hnd] at hg
          exact inv.qle e2 h2 g hg
      · rw [List.mem_singleton.mp h2] at hg ⊢
        dsimp only at hg ⊢
        rw [lookupA_setA_self] at hg
        injection hg with hg2
        rw [← hg2]
    · intro x g hg hxf
      by_cases hx : x = e.dst
      · subst hx
        rw [lookupA_setA_self] at hg
        injection hg with hg2
        refine ⟨⟨gv + (e.weight : α) + hfun e.dst, st.ctr, e.dst⟩,
          List.mem_append_right _ (List.mem_singleton.mpr rfl), rfl, ?_⟩
        dsimp only
        rw [← hg2]
      · rw [lookupA_setA_other _ _ _ _ hx] at hg
        obtain ⟨e2, he2, hn2, hfv⟩ := inv.fresh x g hg hxf
        exact ⟨e2, List.mem_append_left _ he2, hn2, hfv⟩
    · rw [lookupA_setA_other _ _ _ _ (fun hc : s = e.dst => hds hc.symm)]
      exact inv.szero
    · intro x g hg hxs
      by_cases hx : x = e.dst
      · subst hx
        rw [lookupA_setA_self] at hg
        injection hg with hg2
        obtain ⟨l1, l2, hdec⟩ := List.append_of_mem hvf
        refine ⟨v, e.weight, gv, lookupA_setA_self _ _ _, ?_, ?_, ?_, l1, l2, hdec, ?_⟩
        · rw [lookupA_setA_other _ _ _ _ hdv.symm]
          exact hgv
        · have hew := edgeWeight_of_mem hPN he
          rw [hsrc] at hew
          exact hew
        · rw [← hg2]
        · intro m1 m2 hm
          exact absurd (hm ▸ List.mem_append_right m1 (List.mem_cons_self _ _)) hdnf
      · rw [lookupA_setA_other _ _ _ _ hx] at hg
        obtain ⟨p, w2, gp, hpred, hgp, hwt, heqv, l1, l2, hdec, hcond⟩ := inv.chain x g hg hxs
        have hpf : p ∈ st.finalized := by
          rw [hdec]
          exact List.mem_append_right _ (List.mem_cons_self _ _)
        have hpd : p ≠ e.dst := fun hc => hdnf (hc ▸ hpf)
        refine ⟨p, w2, gp, ?_, ?_, hwt, heqv, l1, l2, hdec, hcond⟩
        · rw [lookupA_setA_other _ _ _ _ hx]
          exact hpred
        · rw [lookupA_setA_other _ _ _ _ hpd]
          exact hgp
    · dsimp only
      rw [lookupA_setA_other _ _ _ _ hdv.symm]
      exact hgv

theorem expand_invC {α : Type} [LinearOrderedCommRing α] {G : Graph} {hfun : String → α}
    {s t v : String} {gv : α} (hE : EdgesClosed G) (hW : WeightsNonneg G) (hPN : PairsNodup G)
    {cv : ℤ} (hwv : GWalk G s v cv) (hgvc : gv = (cv : α)) {st : SState α}
    (inv : InvC G hfun s t [v] st) (hvf : v ∈ st.finalized)
    (hgv : lookupA st.gmap v = some gv) :
    InvC G hfun s t [] (expand G hfun v gv st) := by
  have hbundle : InvC G hfun s t [v] (expand G hfun v gv st) ∧
      v ∈ (expand G hfun v gv st).finalized ∧
      lookupA (expand G hfun v gv st).gmap v = some gv := by
    unfold expand
    refine foldl_relax_pres hfun v gv
      (fun st2 => InvC G hfun s t [v] st2 ∧ v ∈ st2.finalized ∧ lookupA st2.gmap v = some gv)
      _ ?_ st ⟨inv, hvf, hgv⟩
    rintro st2 e he2 ⟨hInv2, hvf2, hgv2⟩
    obtain ⟨hmem, hsrc⟩ := mem_outEdges he2
    exact relax_invC hE hW hPN hmem hsrc hwv hgvc hInv2 hvf2 hgv2
  have hest : ∀ e ∈ G.outEdges v, ∃ gd,
      lookupA (expand G hfun v gv st).gmap e.dst = some gd ∧ gd ≤ gv + (e.weight : α) := by
    unfold expand
    refine foldl_relax_establish hfun v gv
      (fun e st2 => ∃ gd, lookupA st2.gmap e.dst = some gd ∧ gd ≤ gv + (e.weight : α)) _ ?_ ?_ st
    · intro st2 e _
      rcases relaxEdge_spec hfun v gv st2 e with ⟨⟨gd, hgd, hge⟩, heq⟩ | ⟨_, heq⟩ <;> rw [heq]
      · exact ⟨gd, hgd, hge⟩
      · exact ⟨_, lookupA_setA_self _ _ _, le_refl _⟩
    · rintro st2 e e2 _ ⟨gd, hgd, hle⟩
      obtain ⟨gd2, hgd2, hle2⟩ := @relaxEdge_gmap_mono α _ hfun v gv st2 e e2.dst gd hgd
      exact ⟨gd2, hgd2, hle2.trans hle⟩
  obtain ⟨hInvF, hvfF, hgvF⟩ := hbundle
  refine ⟨⟨hInvF.qsub, hInvF.gsub, hInvF.greach, hInvF.sing, hInvF.qnode, hInvF.fnode,
    hInvF.fdup, hInvF.tfree, hInvF.fing, ?_⟩, hInvF.gwalk, hInvF.fexact, ?_, hInvF.qle,
    hInvF.fresh, hInvF.szero, hInvF.chain⟩
  · intro x hx _ e2 he2
    by_cases hxv : x = v
    · subst hxv
      obtain ⟨gd, hgd, _⟩ := hest e2 he2
      exact ⟨gd, hgd⟩
    · exact hInvF.fclosed x hx (by simpa using hxv) e2 he2
  · intro x hx _ gx hgx e2 he2
    by_cases hxv : x = v
    · subst hxv
      obtain ⟨gd, hgd, hle⟩ := hest e2 he2
      have hgx2 : gv = gx := by
        rw [hgvF] at hgx
        injection hgx
      rw [← hgx2]
      exact ⟨gd, hgd, hle⟩
    · exact hInvF.frelax x hx (by simpa using hxv) gx hgx e2 he2

/-! ### Path reconstruction from the predecessor chain -/

theorem finMeasure_pos (l : List String) (x : String) : 1 ≤ finMeasure l x := by
  induction l with
  | nil => exact le_refl 1
  | cons y ys ih =>
    simp only [finMeasure]
    split
    · exact ih
    · split <;> omega

theorem finMeasure_le_of_mem {l : List String} {p : String} (h : p ∈ l) :
    finMeasure l p ≤ l.length := by
  induction l with
  | nil => cases h
  | cons y ys ih =>
    simp only [finMeasure]
    by_cases hm : p ∈ ys
    · rw [if_pos hm]
      exact (ih hm).trans (by simp)
    · rw [if_neg hm]
      have hy : y = p := by
        rcases List.mem_cons.mp h with h1 | h1
        · exact h1.symm
        · exact absurd h1 hm
      rw [if_pos hy]
      simp

theorem finMeasure_not_mem {l : List String} {x : String} (h : x ∉ l) :
    finMeasure l x = l.length + 1 := by
  induction l with
  | nil => rfl
  | cons y ys ih =>
    simp only [finMeasure]
    have h1 : x ∉ ys := fun hc => h (List.mem_cons_of_mem _ hc)
    have h2 : ¬y = x := fun hc => h (hc ▸ List.mem_cons_self _ _)
    rw [if_neg h1, if_neg h2]
    simp

theorem finMeasure_split {m1 m2 : List String} {x : String}
    (hnd : (m1 ++ x :: m2).Nodup) : finMeasure (m1 ++ x :: m2) x = m2.length + 1 := by
  induction m1 with
  | nil =>
    have hx : x ∉ m2 := (List.nodup_cons.mp hnd).1
    rw [List.nil_append]
    show (if x ∈ m2 then finMeasure m2 x
      else if x = x then m2.length + 1 else m2.length + 2) = m2.length + 1
    rw [if_neg hx, if_pos rfl]
  | cons y m1b ih =>
    have hmem : x ∈ m1b ++ x :: m2 := List.mem_append_right _ (List.mem_cons_self _ _)
    rw [List.cons_append]
    show (if x ∈ m1b ++ x :: m2 then finMeasure (m1b ++ x :: m2) x
      else if y = x then (m1b ++ x :: m2).length + 1 else (m1b ++ x :: m2).length + 2) =
      m2.length + 1
    rw [if_pos hmem]
    exact ih (List.nodup_cons.mp hnd).2

theorem finMeasure_lt_of_mem_suffix {fin m1 m2 : List String} {x p : String}
    (hnd : fin.Nodup) (hdec : fin = m1 ++ x :: m2) (hp : p ∈ m2) :
    finMeasure fin p < finMeasure fin x := by
  subst hdec
  rw [finMeasure_split hnd]
  obtain ⟨a, b, hab⟩ := List.append_of_mem hp
  subst hab
  have h2 : m1 ++ x :: (a ++ p :: b) = (m1 ++ x :: a) ++ p :: b := by simp
  have h3 : finMeasure (m1 ++ x :: (a ++ p :: b)) p = b.length + 1 := by
    rw [h2]
    exact finMeasure_split (h2 ▸ hnd)
  rw [h3]
  simp only [List.length_append, List.length_cons]
  omega

theorem finMeasure_lt_of_not_mem {fin : List String} {x p : String}
    (hp : p ∈ fin) (hx : x ∉ fin) : finMeasure fin p < finMeasure fin x := by
  rw [finMeasure_not_mem hx]
  exact Nat.lt_succ_of_le (finMeasure_le_of_mem hp)

theorem lookupA_mem_keys {β : Type} {m : List (String × β)} {k : String} {v : β}
    (h : lookupA m k = some v) : k ∈ m.map Prod.fst := by
  unfold lookupA at h
  cases hf : m.find? fun p => p.1 = k with
  | none =>
    rw [hf] at h
    cases h
  | some p =>
    have hp : p.1 = k := by simpa using List.find?_some hf
    have hm := List.mem_of_find?_eq_some hf
    rw [← hp]
    exact List.mem_map_of_mem Prod.fst hm

theorem pathCost_cons_cons (G : Graph) (a b : String) (ys : List String) :
    pathCost G (a :: b :: ys) =
      match edgeWeight G a b, pathCost G (b :: ys) with
      | some w1, some c1 => some (w1 + c1)
      | _, _ => none := rfl

theorem pathCost_snoc {G : Graph} {p x : String} {w : ℤ} (hw : edgeWeight G p x = some w) :
    ∀ (l : List String) (c : ℤ), l.getLast? = some p → pathCost G l = some c →
      pathCost G (l ++ [x]) = some (c + w) := by
  intro l
  induction l with
  | nil =>
    intro c hlast _
    cases hlast
  | cons a ys ih =>
    intro c hlast hc
    cases ys with
    | nil =>
      have hap : a = p := by simpa using hlast
      have hc0 : c = 0 := by
        have h1 : (some (0 : ℤ) : Option ℤ) = some c := hc
        injection h1 with h1b
        exact h1b.symm
      subst hap
      subst hc0
      show pathCost G (a :: x :: []) = some (0 + w)
      rw [pathCost_cons_cons, hw]
      show some (w + 0) = some (0 + w)
      rw [add_zero, zero_add]
    | cons b rest =>
      have hlast2 : (b :: rest).getLast? = some p := by
        rwa [List.getLast?_cons_cons] at hlast
      rw [pathCost_cons_cons] at hc
      cases hew : edgeWeight G a b with
      | none =>
        cases hpc : pathCost G (b :: rest) with
        | none =>
          rw [hew, hpc] at hc
          cases hc
        | some c1 =>
          rw [hew, hpc] at hc
          cases hc
      | some w1 =>
        cases hpc : pathCost G (b :: rest) with
        | none =>
          rw [hew, hpc] at hc
          cases hc
        | some c1 =>
          rw [hew, hpc] at hc
          injection hc with hc2
          have hih := ih c1 hlast2 hpc
          show pathCost G (a :: b :: (rest ++ [x])) = some (c + w)
          rw [pathCost_cons_cons, hew]
          have hsh : (b :: rest) ++ [x] = b :: (rest ++ [x]) := rfl
          rw [hsh] at hih
          rw [hih, ← hc2]
          show some (w1 + (c1 + w)) = some (w1 + c1 + w)
          rw [add_assoc]

theorem chain_recon {α : Type} [LinearOrderedCommRing α] {G : Graph} {hfun : String → α}
    {s t : String} {st : SState α} (inv : InvC G hfun s t [] st) :
    ∀ (n : ℕ) (x : String) (g : α), lookupA st.gmap x = some g →
      finMeasure st.finalized x ≤ n →
      ∃ (keys : List String) (c : ℤ),
        (s :: keys).getLast? = some x ∧
        pathCost G (s :: keys) = some c ∧
        g = (c : α) ∧
        keys.Nodup ∧
        (∀ k ∈ keys, ∃ v, lookupA st.pred k = some v) ∧
        (∀ k ∈ keys, k = x ∨ finMeasure st.finalized k < finMeasure st.finalized x) ∧
        (∀ (acc : List String) (m : ℕ), keys.length + 1 ≤ m →
          reconsAux st.pred s m x acc = some ((s :: keys) ++ acc)) := by
  intro n
  induction n with
  | zero =>
    intro x g _ hm
    exact absurd (le_trans (finMeasure_pos st.finalized x) hm) (by omega)
  | succ n ih =>
    intro x g hg hm
    by_cases hxs : x = s
    · subst hxs
      refine ⟨[], 0, by simp, rfl, ?_, List.nodup_nil,
        fun k hk => absurd hk (List.not_mem_nil k),
        fun k hk => absurd hk (List.not_mem_nil k), ?_⟩
      · rw [inv.szero] at hg
        injection hg with h1
        rw [← h1]
        exact Int.cast_zero.symm
      · intro acc m hm1
        cases m with
        | zero => omega
        | succ m2 =>
          show (if x = x then some (x :: acc) else
            match lookupA st.pred x with
            | some p => reconsAux st.pred x m2 p (x :: acc)
            | none => none) = some ((x :: []) ++ acc)
          rw [if_pos rfl]
          rfl
    · obtain ⟨p, w, gp, hpred, hgp, hwt, heq, l1, l2, hdec, hcond⟩ := inv.chain x g hg hxs
      have hpf : p ∈ st.finalized := by
        rw [hdec]
        exact List.mem_append_right _ (List.mem_cons_self _ _)
      have hmlt : finMeasure st.finalized p < finMeasure st.finalized x := by
        by_cases hxf : x ∈ st.finalized
        · obtain ⟨m1, m2, hm12⟩ := List.append_of_mem hxf
          exact finMeasure_lt_of_mem_suffix inv.fdup hm12 (hcond m1 m2 hm12)
        · exact finMeasure_lt_of_not_mem hpf hxf
      obtain ⟨keys, c, hlast, hpc, hgc, hnd, hpb, hmeas, hrec⟩ := ih p gp hgp (by omega)
      refine ⟨keys ++ [x], c + w, ?_, ?_, ?_, ?_, ?_, ?_, ?_⟩
      · show ((s :: keys) ++ [x]).getLast? = some x
        exact List.getLast?_concat _
      · show pathCost G ((s :: keys) ++ [x]) = some (c + w)
        exact pathCost_snoc hwt (s :: keys) c hlast hpc
      · rw [heq, hgc]
        push_cast
        ring
      · refine List.Nodup.append hnd (List.nodup_singleton x) ?_
        intro a ha hax
        rw [List.mem_singleton.mp hax] at ha
        rcases hmeas x ha with h1 | h1
        · rw [h1] at hmlt
          exact absurd hmlt (lt_irrefl _)
        · omega
      · intro k hk
        rcases List.mem_append.mp hk with h1 | h1
        · exact hpb k h1
        · rw [List.mem_singleton.mp h1]
          exact ⟨p, hpred⟩
      · intro k hk
        rcases List.mem_append.mp hk with h1 | h1
        · rcases hmeas k h1 with h2 | h2
          · rw [h2]
            exact Or.inr hmlt
          · exact Or.inr (h2.trans hmlt)
        · exact Or.inl (List.mem_singleton.mp h1)
      · intro acc m hlen
        cases m with
        | zero => simp at hlen
        | succ m2 =>
          have hx2 : keys.length + 1 ≤ m2 := by
            simp only [List.length_append, List.length_singleton] at hlen
            omega
          show (if x = s then some (x :: acc) else
            match lookupA st.pred x with
            | some p0 => reconsAux st.pred s m2 p0 (x :: acc)
            | none => none) = some ((s :: (keys ++ [x])) ++ acc)
          rw [if_neg hxs, hpred]
          show reconsAux st.pred s m2 p (x :: acc) = some ((s :: (keys ++ [x])) ++ acc)
          rw [hrec (x :: acc) m2 hx2]
          congr 1
          simp

/-! ### The main loop theorem -/

theorem astarLoop_main {α : Type} [LinearOrderedCommRing α] (G : Graph) (hfun : String → α)
    (s t : String) (hE : EdgesClosed G) (hW : WeightsNonneg G) (hPN : PairsNodup G)
    (hC : Consistent G hfun) :
    ∀ (n : ℕ) (st : SState α), InvC G hfun s t [] st → potential G st < n →
      astarLoop G hfun s t n st ≠ .stuck ∧
      (astarLoop G hfun s t n st = .noPath → ¬Reachable G s t) ∧
      (∀ p d, astarLoop G hfun s t n st = .found p d →
        ∃ c : ℤ, d = (c : α) ∧ IsShortestDist G s t c ∧ p.head? = some s ∧
          p.getLast? = some t ∧ pathCost G p = some c) := by
  intro n
  induction n with
  | zero =>
    intro st _ hp
    exact absurd hp (Nat.not_lt_zero _)
  | succ n ih =>
    intro st inv hp
    have hloop : astarLoop G hfun s t (n + 1) st =
        match astarStep G hfun s t st with
        | .halt r => r
        | .go st2 => astarLoop G hfun s t n st2 := rfl
    cases hpop : popMin st.queue with
    | none =>
      have hstep : astarStep G hfun s t st = .halt .noPath := by
        unfold astarStep
        rw [hpop]
      rw [hloop, hstep]
      refine ⟨fun hcon => SearchResult.noConfusion hcon, fun _ => ?_,
        fun p d hcon => SearchResult.noConfusion hcon⟩
      rintro ⟨c, hw⟩
      have hqnil : st.queue = [] := (popMin_none_iff st.queue).mp hpop
      obtain ⟨e2, he2, _⟩ := inv_cover inv hC inv.tfree hw
      rw [hqnil] at he2
      cases he2
    | some pr =>
      obtain ⟨e, q2⟩ := pr
      obtain ⟨gn, hgn⟩ := inv.qsub e (popMin_mem hpop)
      by_cases het : e.node = t
      · have hgt : lookupA st.gmap t = some gn := het ▸ hgn
        obtain ⟨keys, c, hlast, hpc, hgc, hnd, hpb, hmeas, hrec⟩ :=
          chain_recon inv (finMeasure st.finalized t) t gn hgt (le_refl _)
        have hsub : keys ⊆ st.pred.map Prod.fst := fun k hk => by
          obtain ⟨v2, hv2⟩ := hpb k hk
          exact lookupA_mem_keys hv2
        have hklen : keys.length ≤ st.pred.length := by
          have h1 := (List.Nodup.subperm hnd hsub).length_le
          simpa using h1
        have hrecon : reconstructPath st.pred s t = some (s :: keys) := by
          unfold reconstructPath
          have h2 := hrec [] (st.pred.length + 1) (by omega)
          simpa using h2
        have hstep : astarStep G hfun s t st = .halt (.found (s :: keys) gn) := by
          unfold astarStep
          rw [hpop]
          dsimp only
          rw [if_pos het, hgt, hrecon]
        rw [hloop, hstep]
        refine ⟨fun hcon => SearchResult.noConfusion hcon,
          fun hcon => SearchResult.noConfusion hcon, ?_⟩
        intro p d hcon
        have hpeq : s :: keys = p := by injection hcon
        have hdeq : gn = d := by injection hcon
        obtain ⟨c2, hw2, hgc2⟩ := inv.gwalk t gn hgt
        have hcc : c2 = c := by
          have h3 : ((c2 : ℤ) : α) = ((c : ℤ) : α) := by rw [← hgc2, ← hgc]
          exact_mod_cast h3
        rw [hcc] at hw2
        refine ⟨c, by rw [← hdeq, hgc], ⟨hw2, ?_⟩, ?_, ?_, ?_⟩
        · intro c3 hw3
          have h4 := popped_shortest inv hC hpop (by rw [het]; exact inv.tfree) hgn c3
            (by rw [het]; exact hw3)
          have h5 : ((c : ℤ) : α) ≤ ((c3 : ℤ) : α) := hgc ▸ h4
          exact_mod_cast h5
        · rw [← hpeq]
          rfl
        · rw [← hpeq]
          exact hlast
        · rw [← hpeq]
          exact hpc
      · by_cases hfin : e.node ∈ st.finalized
        · have hstep : astarStep G hfun s t st = .go { st with queue := q2 } := by
            unfold astarStep
            rw [hpop]
            dsimp only
            rw [if_neg het, if_pos hfin]
          rw [hloop, hstep]
          have hpot := potential_skip G st q2 (popMin_length hpop)
          exact ih _ (invC_skip inv hpop hfin) (by omega)
        · have hstep : astarStep G hfun s t st =
              .go (expand G hfun e.node gn
                ⟨q2, st.gmap, st.pred, e.node :: st.finalized, st.ctr⟩) := by
            unfold astarStep
            rw [hpop]
            dsimp only
            rw [if_neg het, if_neg hfin, hgn]
          rw [hloop, hstep]
          obtain ⟨cv, hwv, hgvc⟩ := inv.gwalk e.node gn hgn
          have hinv2 := expand_invC hE hW hPN hwv hgvc
            (invC_finalize inv hC hpop hfin het) (List.mem_cons_self _ _) hgn
          have hpot := potential_finalize G hfun st q2 e.node gn (popMin_length hpop)
            (inv.qnode e (popMin_mem hpop)) hfin
          exact ih _ hinv2 (by omega)

/-! ### The initial state and whole-run corollaries -/

theorem lookupA_singleton {β : Type} (s : String) (b : β) : lookupA [(s, b)] s = some b := by
  unfold lookupA
  rw [List.find?_cons_of_pos _ (by simp)]
  rfl

theorem lookupA_singleton_inv {β : Type} {s x : String} {b g : β}
    (h : lookupA [(s, b)] x = some g) : x = s ∧ g = b := by
  unfold lookupA at h
  by_cases hx : s = x
  · rw [List.find?_cons_of_pos _ (by simpa using hx)] at h
    injection h with h2
    exact ⟨hx.symm, h2.symm⟩
  · rw [List.find?_cons_of_neg _ (by simpa using hx)] at h
    simp at h

theorem initState_invC {α : Type} [LinearOrderedCommRing α] (G : Graph) (hfun : String → α)
    (s t : String) (hs : G.hasNode s) : InvC G hfun s t [] (initState hfun s) := by
  refine ⟨⟨?_, ?_, ?_, ?_, ?_, ?_, ?_, ?_, ?_, ?_⟩, ?_, ?_, ?_, ?_, ?_, ?_, ?_⟩
  · intro e he
    rw [List.mem_singleton.mp he]
    exact ⟨0, lookupA_singleton s 0⟩
  · intro x g hg
    obtain ⟨hxs, _⟩ := lookupA_singleton_inv hg
    exact Or.inl ⟨⟨hfun s, 0, s⟩, List.mem_singleton.mpr rfl, hxs.symm⟩
  · intro x g hg
    obtain ⟨hxs, _⟩ := lookupA_singleton_inv hg
    rw [hxs]
    exact ⟨0, GWalk.nil s⟩
  · exact ⟨0, lookupA_singleton s 0⟩
  · intro e he
    rw [List.mem_singleton.mp he]
    exact hs
  · intro x hx
    cases hx
  · exact List.nodup_nil
  · intro hc
    cases hc
  · intro x hx
    cases hx
  · intro x hx
    cases hx
  · intro x g hg
    obtain ⟨hxs, hg0⟩ := lookupA_singleton_inv hg
    rw [hxs, hg0]
    exact ⟨0, GWalk.nil s, Int.cast_zero.symm⟩
  · intro x hx
    cases hx
  · intro x hx
    cases hx
  · intro e he g hg
    rw [List.mem_singleton.mp he] at hg ⊢
    obtain ⟨_, hg0⟩ := lookupA_singleton_inv hg
    dsimp only
    rw [hg0, zero_add]
  · intro x g hg _
    obtain ⟨hxs, hg0⟩ := lookupA_singleton_inv hg
    refine ⟨⟨hfun s, 0, s⟩, List.mem_singleton.mpr rfl, hxs.symm, ?_⟩
    dsimp only
    rw [hxs, hg0, zero_add]
  · exact lookupA_singleton s 0
  · intro x g hg hxne
    obtain ⟨hxs, _⟩ := lookupA_singleton_inv hg
    exact absurd hxs hxne

theorem potential_initState {α : Type} [LinearOrderedCommRing α] (G : Graph) (h : String → α)
    (s : String) : potential G (initState h s) < runFuel G := by
  unfold potential initState runFuel
  have hfil : (G.nodeIds.dedup.filter fun v => v ∉ ([] : List String)) = G.nodeIds.dedup := by
    simp
  simp only [hfil, List.length_singleton]
  omega

theorem astarRun_spec {α : Type} [LinearOrderedCommRing α] (G : Graph) (hfun : String → α)
    (s t : String) (hE : EdgesClosed G) (hW : WeightsNonneg G) (hPN : PairsNodup G)
    (hC : Consistent G hfun) (hs : G.hasNode s) :
    astarRun G hfun s t ≠ .stuck ∧
    (astarRun G hfun s t = .noPath → ¬Reachable G s t) ∧
    (∀ p d, astarRun G hfun s t = .found p d →
      ∃ c : ℤ, d = (c : α) ∧ IsShortestDist G s t c ∧ p.head? = some s ∧
        p.getLast? = some t ∧ pathCost G p = some c) :=
  astarLoop_main G hfun s t hE hW hPN hC (runFuel G) (initState hfun s)
    (initState_invC G hfun s t hs) (potential_initState G hfun s)

theorem astarRun_unreach {α : Type} [LinearOrderedCommRing α] (G : Graph) (hfun : String → α)
    (s t : String) (hE : EdgesClosed G) (hs : G.hasNode s) (hur : ¬Reachable G s t) :
    astarRun G hfun s t = .noPath :=
  astarLoop_unreach G hfun s t hE (runFuel G) (initState hfun s)
    (initState_invC G hfun s t hs).toInvL (potential_initState G hfun s) hur

/-! ### Route-query corollaries -/

theorem planRoute_nodeNotFound {α : Type} [LinearOrderedCommRing α] (G : Graph)
    (hfun : String → α) (s t : String) (h : ¬(G.hasNode s ∧ G.hasNode t)) :
    planRoute G hfun s t = .nodeNotFound := by
  unfold planRoute
  rw [if_neg h]

theorem planRoute_noPath {α : Type} [LinearOrderedCommRing α] (G : Graph)
    (hfun : String → α) (s t : String) (hE : EdgesClosed G) (hs : G.hasNode s)
    (ht : G.hasNode t) (hur : ¬Reachable G s t) :
    planRoute G hfun s t = .noPathFound := by
  unfold planRoute
  rw [if_pos ⟨hs, ht⟩, astarRun_unreach G hfun s t hE hs hur]

theorem planRoute_found {α : Type} [LinearOrderedCommRing α] (G : Graph)
    (hfun : String → α) (s t : String) (hE : EdgesClosed G) (hW : WeightsNonneg G)
    (hPN : PairsNodup G) (hC : Consistent G hfun) (hs : G.hasNode s) (ht : G.hasNode t)
    (hr : Reachable G s t) :
    ∃ (p : List String) (c : ℤ), planRoute G hfun s t = .route p ((c : α)) ∧
      IsShortestDist G s t c ∧
      p.head? = some s ∧ p.getLast? = some t ∧ pathCost G p = some c := by
  obtain ⟨hns, hnp, hfound⟩ := astarRun_spec G hfun s t hE hW hPN hC hs
  unfold planRoute
  rw [if_pos ⟨hs, ht⟩]
  cases hres : astarRun G hfun s t with
  | noPath => exact absurd hr (hnp hres)
  | stuck => exact absurd hres hns
  | found p d =>
    obtain ⟨c, hd, hsd, hh, hl, hpc⟩ := hfound p d hres
    exact ⟨p, c, by rw [hd], hsd, hh, hl, hpc⟩

/-! ### Evaluation helpers for concrete runs -/

theorem lookupA_nil {β : Type} (x : String) : lookupA ([] : List (String × β)) x = none := rfl

theorem lookupA_cons_self {β : Type} (k : String) (b : β) (m : List (String × β)) :
    lookupA ((k, b) :: m) k = some b := by
  unfold lookupA
  rw [List.find?_cons_of_pos _ (by simp)]
  rfl

theorem lookupA_cons_ne {β : Type} {k x : String} (b : β) (m : List (String × β))
    (h : ¬k = x) : lookupA ((k, b) :: m) x = lookupA m x := by
  unfold lookupA
  rw [List.find?_cons_of_neg _ (by simpa using h)]

theorem setA_nil {β : Type} (x : String) (b : β) : setA [] x b = [(x, b)] := rfl

theorem setA_cons_self {β : Type} (k : String) (b0 b : β) (m : List (String × β)) :
    setA ((k, b0) :: m) k b = (k, b) :: m := by
  unfold setA
  rw [if_pos rfl]

theorem setA_cons_ne {β : Type} {k x : String} (b0 b : β) (m : List (String × β))
    (h : ¬k = x) : setA ((k, b0) :: m) x b = (k, b0) :: setA m x b := by
  conv_lhs => unfold setA
  rw [if_neg h]

theorem not_qLE_of_lt {α : Type} [LinearOrderedCommRing α] {e f : QEntry α}
    (h : f.fv < e.fv) : ¬qLE e f := by
  rintro (h1 | ⟨h1, _⟩)
  · exact absurd h1 (not_lt.mpr h.le)
  · rw [h1] at h
    exact absurd h (lt_irrefl _)

theorem popMin_one {α : Type} [LinearOrderedCommRing α] (e : QEntry α) :
    popMin [e] = some (e, []) := rfl

theorem popMin_two {α : Type} [LinearOrderedCommRing α] (e1 e2 : QEntry α) :
    popMin [e1, e2] = if qLE e1 e2 then some (e1, [e2]) else some (e2, [e1]) := rfl

/-! ### Exact heuristic values at the scenario coordinates -/

theorem havA_same (lat lon : ℚ) : havA lat lon lat lon = 0 := by
  unfold havA radians
  simp

theorem atan2_zero_one : atan2 0 1 = 0 := by
  unfold atan2
  rw [if_pos one_pos]
  norm_num [Real.arctan_zero]

theorem haversine_same (lat lon : ℚ) : haversine lat lon lat lon = 0 := by
  unfold haversine
  rw [havA_same, Real.sqrt_zero]
  rw [show (1 : ℝ) - 0 = 1 by norm_num, Real.sqrt_one, atan2_zero_one]
  ring

theorem havA_antipodal : havA 0 0 0 180 = 1 := by
  unfold havA radians
  push_cast
  rw [show ((0 : ℝ) - 0) * Real.pi / 180 / 2 = 0 by ring]
  rw [show ((180 : ℝ) - 0) * Real.pi / 180 / 2 = Real.pi / 2 by ring]
  rw [show (0 : ℝ) * Real.pi / 180 = 0 by ring]
  rw [Real.sin_zero, Real.cos_zero, Real.sin_pi_div_two]
  norm_num

theorem haversine_antipodal : haversine 0 0 0 180 = 6371000 * Real.pi := by
  unfold haversine
  rw [havA_antipodal]
  rw [show (1 : ℝ) - 1 = 0 by norm_num, Real.sqrt_zero, Real.sqrt_one, atan2_one_zero]
  ring

theorem havA_pole : havA 0 0 90 0 = 1 / 2 := by
  unfold havA radians
  push_cast
  rw [show ((90 : ℝ) - 0) * Real.pi / 180 / 2 = Real.pi / 4 by ring]
  rw [show ((0 : ℝ) - 0) * Real.pi / 180 / 2 = 0 by ring]
  rw [show (0 : ℝ) * Real.pi / 180 = 0 by ring]
  rw [Real.sin_zero, Real.cos_zero, Real.sin_pi_div_four]
  rw [div_pow, Real.sq_sqrt (by norm_num : (0 : ℝ) ≤ 2)]
  norm_num

theorem haversine_pole : haversine 0 0 90 0 = 6371000 * (Real.pi / 2) := by
  unfold haversine
  rw [havA_pole]
  rw [show (1 : ℝ) - 1 / 2 = 1 / 2 by norm_num]
  have hpos : (0 : ℝ) < Real.sqrt (1 / 2) := Real.sqrt_pos.mpr (by norm_num)
  unfold atan2
  rw [if_pos hpos, div_self (ne_of_gt hpos), Real.arctan_one]
  ring

theorem heurFun_gOpt_A : heurFun gOpt "G" "A" = 637100 * Real.pi := by
  show (heuristic gOpt "A" "G").getR = 637100 * Real.pi
  unfold heuristic
  rw [show (gOpt.attrOf "A").bind NodeAttr.coords = some (some 0, some 0) from by decide]
  rw [show (gOpt.attrOf "G").bind NodeAttr.coords = some (some 0, some 180) from by decide]
  show haversine 0 0 0 180 / 10 = 637100 * Real.pi
  rw [haversine_antipodal]
  ring

theorem heurFun_gOpt_B : heurFun gOpt "G" "B" = 0 := by
  show (heuristic gOpt "B" "G").getR = 0
  unfold heuristic
  rw [show (gOpt.attrOf "B").bind NodeAttr.coords = none from by decide]
  rw [show (gOpt.attrOf "G").bind NodeAttr.coords = some (some 0, some 180) from by decide]
  rfl

theorem heurFun_gOpt_G : heurFun gOpt "G" "G" = 0 := by
  show (heuristic gOpt "G" "G").getR = 0
  unfold heuristic
  rw [show (gOpt.attrOf "G").bind NodeAttr.coords = some (some 0, some 180) from by decide]
  show haversine 0 180 0 180 / 10 = 0
  rw [haversine_same]
  norm_num

theorem astarLoop_succ {α : Type} [LinearOrderedCommRing α] (G : Graph) (h : String → α)
    (s t : String) (n : ℕ) (st : SState α) :
    astarLoop G h s t (n + 1) st =
      match astarStep G h s t st with
      | .halt r => r
      | .go st2 => astarLoop G h s t n st2 := rfl

/-! ### The run of the program's search on the snapshot `gOpt` -/

theorem gOpt_run (h : String → ℝ) (hvA : h "A" = 637100 * Real.pi) (hvB : h "B" = 0)
    (hvG : h "G" = 0) : planRoute gOpt h "S" "G" = .route ["S", "B", "G"] 20 := by
  have houtS : gOpt.outEdges "S" = [⟨"S", "A", 5, .travel, some "r1"⟩,
      ⟨"S", "B", 5, .travel, some "r1"⟩] := by decide
  have houtB : gOpt.outEdges "B" = [⟨"B", "G", 15, .travel, some "r1"⟩] := by decide
  have hfuel : runFuel gOpt = 10 := by decide
  have s1 : astarStep gOpt h "S" "G" ⟨[⟨h "S", 0, "S"⟩], [("S", 0)], [], [], 1⟩ =
      .go ⟨[⟨5 + h "A", 1, "A"⟩, ⟨5 + h "B", 2, "B"⟩],
        [("S", 0), ("A", 5), ("B", 5)], [("A", "S"), ("B", "S")], ["S"], 3⟩ := by
    simp [astarStep, popMin, expand, houtS, relaxEdge, lookupA, setA]
  have s2 : astarStep gOpt h "S" "G"
      ⟨[⟨5 + h "A", 1, "A"⟩, ⟨5 + h "B", 2, "B"⟩],
        [("S", 0), ("A", 5), ("B", 5)], [("A", "S"), ("B", "S")], ["S"], 3⟩ =
      .go ⟨[⟨5 + h "A", 1, "A"⟩, ⟨20 + h "G", 3, "G"⟩],
        [("S", 0), ("A", 5), ("B", 5), ("G", 20)],
        [("A", "S"), ("B", "S"), ("G", "B")], ["B", "S"], 4⟩ := by
    have hlt : (5 : ℝ) + h "B" < 5 + h "A" := by
      rw [hvA, hvB]
      nlinarith [Real.pi_gt_three]
    have hq1 : ¬qLE (⟨5 + h "A", 1, "A"⟩ : QEntry ℝ) ⟨5 + h "B", 2, "B"⟩ :=
      not_qLE_of_lt hlt
    simp [astarStep, popMin, hq1, expand, houtB, relaxEdge, lookupA, setA]
    norm_num
  have s3 : astarStep gOpt h "S" "G"
      ⟨[⟨5 + h "A", 1, "A"⟩, ⟨20 + h "G", 3, "G"⟩],
        [("S", 0), ("A", 5), ("B", 5), ("G", 20)],
        [("A", "S"), ("B", "S"), ("G", "B")], ["B", "S"], 4⟩ =
      .halt (.found ["S", "B", "G"] 20) := by
    have hlt : (20 : ℝ) + h "G" < 5 + h "A" := by
      rw [hvA, hvG]
      nlinarith [Real.pi_gt_three]
    have hq2 : ¬qLE (⟨5 + h "A", 1, "A"⟩ : QEntry ℝ) ⟨20 + h "G", 3, "G"⟩ :=
      not_qLE_of_lt hlt
    simp [astarStep, popMin, hq2, lookupA, reconstructPath, reconsAux]
  have hrun : astarRun gOpt h "S" "G" = .found ["S", "B", "G"] 20 := by
    unfold astarRun initState
    rw [hfuel]
    rw [show (10 : ℕ) = 9 + 1 from rfl, astarLoop_succ, s1]
    show astarLoop gOpt h "S" "G" 9 _ = _
    rw [show (9 : ℕ) = 8 + 1 from rfl, astarLoop_succ, s2]
    show astarLoop gOpt h "S" "G" 8 _ = _
    rw [show (8 : ℕ) = 7 + 1 from rfl, astarLoop_succ, s3]
  unfold planRoute
  rw [if_pos (by decide : gOpt.hasNode "S" ∧ gOpt.hasNode "G"), hrun]

theorem planRouteReal_gOpt : planRouteReal gOpt "S" "G" = .route ["S", "B", "G"] 20 :=
  gOpt_run (heurFun gOpt "G") heurFun_gOpt_A heurFun_gOpt_B heurFun_gOpt_G

/-! ### The run of the program's search on the snapshot `gTot` -/

theorem heurFun_gTot_M : heurFun gTot "X" "M" = 318550 * Real.pi := by
  show (heuristic gTot "M" "X").getR = 318550 * Real.pi
  unfold heuristic
  rw [show (gTot.attrOf "M").bind NodeAttr.coords = some (some 0, some 0) from by decide]
  rw [show (gTot.attrOf "X").bind NodeAttr.coords = some (some 90, some 0) from by decide]
  show haversine 0 0 90 0 / 10 = 318550 * Real.pi
  rw [haversine_pole]
  ring

theorem heurFun_gTot_U : heurFun gTot "X" "U" = 0 := by
  show (heuristic gTot "U" "X").getR = 0
  unfold heuristic
  rw [show (gTot.attrOf "U").bind NodeAttr.coords = none from by decide]
  rw [show (gTot.attrOf "X").bind NodeAttr.coords = some (some 90, some 0) from by decide]
  rfl

theorem heurFun_gTot_X : heurFun gTot "X" "X" = 0 := by
  show (heuristic gTot "X" "X").getR = 0
  unfold heuristic
  rw [show (gTot.attrOf "X").bind NodeAttr.coords = some (some 90, some 0) from by decide]
  show haversine 90 0 90 0 / 10 = 0
  rw [haversine_same]
  norm_num

theorem gTot_run (h : String → ℝ) (hvM : h "M" = 318550 * Real.pi) (hvU : h "U" = 0)
    (hvX : h "X" = 0) : planRoute gTot h "S" "X" = .route ["S", "M", "U", "X"] 1000756 := by
  have houtS : gTot.outEdges "S" = [⟨"S", "U", 1000755, .travel, some "r1"⟩,
      ⟨"S", "M", 1, .travel, some "r1"⟩] := by decide
  have houtU : gTot.outEdges "U" = [⟨"U", "X", 1, .travel, some "r1"⟩] := by decide
  have houtM : gTot.outEdges "M" = [⟨"M", "U", 1, .travel, some "r1"⟩] := by decide
  have hfuel : runFuel gTot = 10 := by decide
  have s1 : astarStep gTot h "S" "X" ⟨[⟨h "S", 0, "S"⟩], [("S", 0)], [], [], 1⟩ =
      .go ⟨[⟨1000755 + h "U", 1, "U"⟩, ⟨1 + h "M", 2, "M"⟩],
        [("S", 0), ("U", 1000755), ("M", 1)], [("U", "S"), ("M", "S")], ["S"], 3⟩ := by
    simp [astarStep, popMin, expand, houtS, relaxEdge, lookupA, setA]
  have s2 : astarStep gTot h "S" "X"
      ⟨[⟨1000755 + h "U", 1, "U"⟩, ⟨1 + h "M", 2, "M"⟩],
        [("S", 0), ("U", 1000755), ("M", 1)], [("U", "S"), ("M", "S")], ["S"], 3⟩ =
      .go ⟨[⟨1 + h "M", 2, "M"⟩, ⟨1000756 + h "X", 3, "X"⟩],
        [("S", 0), ("U", 1000755), ("M", 1), ("X", 1000756)],
        [("U", "S"), ("M", "S"), ("X", "U")], ["U", "S"], 4⟩ := by
    have hlt : (1000755 : ℝ) + h "U" < 1 + h "M" := by
      rw [hvU, hvM]
      nlinarith [Real.pi_gt_3141592]
    have hq1 : qLE (⟨1000755 + h "U", 1, "U"⟩ : QEntry ℝ) ⟨1 + h "M", 2, "M"⟩ :=
      Or.inl hlt
    simp [astarStep, popMin, hq1, expand, houtU, relaxEdge, lookupA, setA]
    norm_num
  have s3 : astarStep gTot h "S" "X"
      ⟨[⟨1 + h "M", 2, "M"⟩, ⟨1000756 + h "X", 3, "X"⟩],
        [("S", 0), ("U", 1000755), ("M", 1), ("X", 1000756)],
        [("U", "S"), ("M", "S"), ("X", "U")], ["U", "S"], 4⟩ =
      .go ⟨[⟨1000756 + h "X", 3, "X"⟩, ⟨2 + h "U", 4, "U"⟩],
        [("S", 0), ("U", 2), ("M", 1), ("X", 1000756)],
        [("U", "M"), ("M", "S"), ("X", "U")], ["M", "U", "S"], 5⟩ := by
    have hlt : (1 : ℝ) + h "M" < 1000756 + h "X" := by
      rw [hvX, hvM]
      nlinarith [Real.pi_lt_3141593]
    have hq2 : qLE (⟨1 + h "M", 2, "M"⟩ : QEntry ℝ) ⟨1000756 + h "X", 3, "X"⟩ :=
      Or.inl hlt
    simp [astarStep, popMin, hq2, expand, houtM, relaxEdge, lookupA, setA]
    norm_num
  have s4 : astarStep gTot h "S" "X"
      ⟨[⟨1000756 + h "X", 3, "X"⟩, ⟨2 + h "U", 4, "U"⟩],
        [("S", 0), ("U", 2), ("M", 1), ("X", 1000756)],
        [("U", "M"), ("M", "S"), ("X", "U")], ["M", "U", "S"], 5⟩ =
      .go ⟨[⟨1000756 + h "X", 3, "X"⟩],
        [("S", 0), ("U", 2), ("M", 1), ("X", 1000756)],
        [("U", "M"), ("M", "S"), ("X", "U")], ["M", "U", "S"], 5⟩ := by
    have hlt : (2 : ℝ) + h "U" < 1000756 + h "X" := by
      rw [hvU, hvX]
      norm_num
    have hq3 : ¬qLE (⟨1000756 + h "X", 3, "X"⟩ : QEntry ℝ) ⟨2 + h "U", 4, "U"⟩ :=
      not_qLE_of_lt hlt
    simp [astarStep, popMin, hq3, lookupA]
  have s5 : astarStep gTot h "S" "X"
      ⟨[⟨1000756 + h "X", 3, "X"⟩],
        [("S", 0), ("U", 2), ("M", 1), ("X", 1000756)],
        [("U", "M"), ("M", "S"), ("X", "U")], ["M", "U", "S"], 5⟩ =
      .halt (.found ["S", "M", "U", "X"] 1000756) := by
    simp [astarStep, popMin, lookupA, reconstructPath, reconsAux]
  have hrun : astarRun gTot h "S" "X" = .found ["S", "M", "U", "X"] 1000756 := by
    unfold astarRun initState
    rw [hfuel]
    rw [show (10 : ℕ) = 9 + 1 from rfl, astarLoop_succ, s1]
    show astarLoop gTot h "S" "X" 9 _ = _
    rw [show (9 : ℕ) = 8 + 1 from rfl, astarLoop_succ, s2]
    show astarLoop gTot h "S" "X" 8 _ = _
    rw [show (8 : ℕ) = 7 + 1 from rfl, astarLoop_succ, s3]
    show astarLoop gTot h "S" "X" 7 _ = _
    rw [show (7 : ℕ) = 6 + 1 from rfl, astarLoop_succ, s4]
    show astarLoop gTot h "S" "X" 6 _ = _
    rw [show (6 : ℕ) = 5 + 1 from rfl, astarLoop_succ, s5]
  unfold planRoute
  rw [if_pos (by decide : gTot.hasNode "S" ∧ gTot.hasNode "X"), hrun]

theorem planRouteReal_gTot :
    planRouteReal gTot "S" "X" = .route ["S", "M", "U", "X"] 1000756 :=
  gTot_run (heurFun gTot "X") heurFun_gTot_M heurFun_gTot_U heurFun_gTot_X

/-! ### Shortest distances and reachability on the concrete snapshots -/

theorem gOpt_lb (x y : String) (c : ℤ) (hw : GWalk gOpt x y c) (hy : y = "G") :
    (x = "S" → 10 ≤ c) ∧ (x = "A" → 5 ≤ c) ∧ (x = "B" → 15 ≤ c) ∧ (x = "G" → 0 ≤ c) := by
  induction hw with
  | nil z =>
    subst hy
    refine ⟨fun h => ?_, fun h => ?_, fun h => ?_, fun h => ?_⟩
    · exact absurd h (by decide)
    · exact absurd h (by decide)
    · exact absurd h (by decide)
    · exact le_refl 0
  | cons e he hs tail ih =>
    have hih := ih hy
    rw [show gOpt.edges = [⟨"S", "A", 5, .travel, some "r1"⟩, ⟨"A", "G", 5, .travel, some "r1"⟩,
      ⟨"S", "B", 5, .travel, some "r1"⟩, ⟨"B", "G", 15, .travel, some "r1"⟩] from by decide] at he
    simp only [List.mem_cons, List.not_mem_nil, or_false] at he
    rcases he with rfl | rfl | rfl | rfl
    · refine ⟨fun h => ?_, fun h => ?_, fun h => ?_, fun h => ?_⟩ <;> rw [← hs] at h
      · have h5 := hih.2.1 rfl
        dsimp only
        omega
      · exact absurd h (by decide)
      · exact absurd h (by decide)
      · exact absurd h (by decide)
    · refine ⟨fun h => ?_, fun h => ?_, fun h => ?_, fun h => ?_⟩ <;> rw [← hs] at h
      · exact absurd h (by decide)
      · have h0 := hih.2.2.2 rfl
        dsimp only
        omega
      · exact absurd h (by decide)
      · exact absurd h (by decide)
    · refine ⟨fun h => ?_, fun h => ?_, fun h => ?_, fun h => ?_⟩ <;> rw [← hs] at h
      · have h15 := hih.2.2.1 rfl
        dsimp only
        omega
      · exact absurd h (by decide)
      · exact absurd h (by decide)
      · exact absurd h (by decide)
    · refine ⟨fun h => ?_, fun h => ?_, fun h => ?_, fun h => ?_⟩ <;> rw [← hs] at h
      · exact absurd h (by decide)
      · exact absurd h (by decide)
      · have h0 := hih.2.2.2 rfl
        dsimp only
        omega
      · exact absurd h (by decide)

theorem gOpt_shortest : IsShortestDist gOpt "S" "G" 10 := by
  constructor
  · rw [show (10 : ℤ) = 5 + (5 + 0) from by norm_num]
    exact .cons ⟨"S", "A", 5, .travel, some "r1"⟩ (by decide) rfl
      (.cons ⟨"A", "G", 5, .travel, some "r1"⟩ (by decide) rfl (.nil "G"))
  · intro c hw
    exact (gOpt_lb "S" "G" c hw rfl).1 rfl

theorem gC_walk (x y : String) (c : ℤ) (hw : GWalk gC x y c) : x = y := by
  cases hw with
  | nil _ => rfl
  | cons e he _ _ =>
    rw [show gC.edges = [] from by decide] at he
    cases he

theorem gC_unreach : ¬Reachable gC "A" "B" := by
  rintro ⟨c, hw⟩
  exact absurd (gC_walk _ _ _ hw) (by decide)

theorem heuristic_gFar : heuristic gFar "A" "B" = .val (637100 * Real.pi) := by
  unfold heuristic
  rw [show (gFar.attrOf "A").bind NodeAttr.coords = some (some 0, some 0) from by decide]
  rw [show (gFar.attrOf "B").bind NodeAttr.coords = some (some 0, some 180) from by decide]
  show HVal.val (haversine 0 0 0 180 / 10) = _
  rw [haversine_antipodal]
  norm_num
  ring

theorem gFar_walk : GWalk gFar "A" "B" 1 := by
  rw [show (1 : ℤ) = 1 + 0 from by norm_num]
  exact .cons ⟨"A", "B", 1, .travel, some "r1"⟩ (by decide) rfl (.nil "B")

/-! ### The claims -/

/-- C1: for every graph built by the Graph Builder and every pair of
existing nodes with the destination reachable, the search's `total_seconds`
equals the reference uniform-cost (Dijkstra) shortest distance — provable
for every consistent heuristic (the degraded all-zero case included), while
the program's coordinate heuristic violates it (see the counterexample on
`gOpt`). -/
theorem C1_optimal_of_consistent {α : Type} [LinearOrderedCommRing α]
    (stops : List StopRec) (tv : List TravelRec) (tf : List TransferRec)
    (hfun : String → α) (s t : String)
    (hW : WeightsNonneg (buildGraph stops tv tf))
    (hC : Consistent (buildGraph stops tv tf) hfun)
    (hs : (buildGraph stops tv tf).hasNode s)
    (ht : (buildGraph stops tv tf).hasNode t)
    (hr : Reachable (buildGraph stops tv tf) s t) :
    ∃ (p : List String) (c : ℤ),
      planRoute (buildGraph stops tv tf) hfun s t = .route p ((c : α)) ∧
      IsShortestDist (buildGraph stops tv tf) s t c := by
  obtain ⟨p, c, h1, h2, _⟩ := planRoute_found _ hfun s t
    (edgesClosed_buildGraph stops tv tf) hW (pairsNodup_buildGraph stops tv tf) hC hs ht hr
  exact ⟨p, c, h1, h2⟩

/-- C1 witness: scenario A under the degraded all-zero heuristic; every
hypothesis holds at this input and the search returns the Dijkstra value. -/
theorem C1_witness :
    WeightsNonneg gA ∧ Consistent gA zeroHeur ∧ gA.hasNode "A" ∧ gA.hasNode "C" ∧
      Reachable gA "A" "C" ∧
      ∃ (p : List String) (c : ℤ), planRoute gA zeroHeur "A" "C" = .route p ((c : ℤ)) ∧
        IsShortestDist gA "A" "C" c := by
  have hreach : Reachable gA "A" "C" :=
    ⟨100 + (200 + 0), .cons ⟨"A", "B", 100, .travel, some "r1"⟩ (by decide) rfl
      (.cons ⟨"B", "C", 200, .travel, some "r1"⟩ (by decide) rfl (.nil "C"))⟩
  exact ⟨by decide, by unfold Consistent zeroHeur; decide, by decide, by decide, hreach,
    C1_optimal_of_consistent stopsABC travelsABC [] zeroHeur "A" "C" (by decide)
      (by unfold Consistent zeroHeur; decide) (by decide) (by decide) hreach⟩

/-- C1 counterexample: on the built snapshot `gOpt` the program's query
returns total 20 although the reference Dijkstra distance of the same
reachable pair is 10. -/
theorem C1_counterexample :
    planRouteReal gOpt "S" "G" = .route ["S", "B", "G"] 20 ∧
      IsShortestDist gOpt "S" "G" 10 ∧ (20 : ℝ) ≠ ((10 : ℤ) : ℝ) :=
  ⟨planRouteReal_gOpt, gOpt_shortest, by norm_num⟩

/-- C2: after the Graph Builder runs every ordered pair carries at most one
edge, and a transfer row on an existing pair overwrites the stored weight
and kind with the last transfer row's data — but the `route` attribute of
the previously stored Travel edge persists through the dictionary merge, so
the Travel edge is not discarded entirely. -/
theorem C2_overwrite (stops : List StopRec) (tv : List TravelRec) (tf : List TransferRec)
    (a b : String) (w : ℤ)
    (ha : (addTravelEdges (stopsGraph stops) tv).hasNode a)
    (hb : (addTravelEdges (stopsGraph stops) tv).hasNode b)
    (hw : lastTransferWeight tf a b = some w) :
    PairsNodup (buildGraph stops tv tf) ∧
    findEdge (buildGraph stops tv tf) a b =
      some ⟨a, b, w, .transfer,
        (findEdge (addTravelEdges (stopsGraph stops) tv) a b).bind Edge.route⟩ := by
  refine ⟨pairsNodup_buildGraph stops tv tf, ?_⟩
  show findEdge (addTransferEdges (addTravelEdges (stopsGraph stops) tv) tf) a b = _
  unfold addTransferEdges
  rw [transferFold_findEdge _ _ a b ha hb]
  unfold lastTransferWeight at hw
  rw [hw]

/-- C2 witness: scenario B — the transfer row A→B (50 s) overwrites the
weight and kind of the travel edge A→B (100 s) while keeping its route. -/
theorem C2_witness :
    (addTravelEdges (stopsGraph stopsABC) travelsABC).hasNode "A" ∧
    (addTravelEdges (stopsGraph stopsABC) travelsABC).hasNode "B" ∧
    lastTransferWeight [⟨"A", "B", some 50⟩] "A" "B" = some 50 ∧
    (PairsNodup gB ∧ findEdge gB "A" "B" =
      some ⟨"A", "B", 50, .transfer,
        (findEdge (addTravelEdges (stopsGraph stopsABC) travelsABC) "A" "B").bind
          Edge.route⟩) :=
  ⟨by decide, by decide, by decide,
    C2_overwrite stopsABC travelsABC [⟨"A", "B", some 50⟩] "A" "B" 50 (by decide) (by decide)
      (by decide)⟩

/-- C2 counterexample: in scenario B's graph the surviving A→B edge still
carries the overwritten Travel edge's `route` attribute, refuting
"the Travel edge is discarded entirely". -/
theorem C2_counterexample :
    findEdge gB "A" "B" = some ⟨"A", "B", 50, .transfer, some "r1"⟩ := by decide

/-- C3: every transfer edge of a built graph comes from a transfers row
with `from ≠ to`, and its weight is the stored `min_transfer_time` when
strictly positive and exactly 180 otherwise (zero, negative and NULL all
yield 180). -/
theorem C3_transfer_rule (stops : List StopRec) (tv : List TravelRec) (tf : List TransferRec) :
    (∀ e ∈ (buildGraph stops tv tf).edges, e.kind = .transfer →
      e.src ≠ e.dst ∧ ∃ r ∈ tf, e.src = r.src ∧ e.dst = r.dst ∧
        e.weight = transferWeight r.minTransferTime) ∧
    (∀ t : ℤ, transferWeight (some t) = if 0 < t then t else 180) ∧
    transferWeight none = 180 :=
  ⟨buildGraph_transfer_edges stops tv tf, fun _ => rfl, rfl⟩

/-- C3 witness: scenario E — the transfer record (A, B, 0) produces the
edge A→B with weight 180, a non-self-loop pair from the table. -/
theorem C3_witness :
    ("A" : String) ≠ "B" ∧ (∃ r ∈ [(⟨"A", "B", some 0⟩ : TransferRec)],
      ("A" : String) = r.src ∧ ("B" : String) = r.dst ∧
      (180 : ℤ) = transferWeight r.minTransferTime) := by
  have h := (C3_transfer_rule [⟨"A", "Station A", some 0, some 0⟩,
      ⟨"B", "Station B", some 0, some 1⟩] [] [⟨"A", "B", some 0⟩]).1
    ⟨"A", "B", 180, .transfer, none⟩ (by decide) rfl
  exact h

/-- C4: the builder inserts a Travel edge for every travel record with no
endpoint check — absent endpoints are auto-created as nodes — so every
travel pair is present and no edge dangles; the claim's "only for endpoints
among the Stations, no new nodes" is refuted by the counterexample. -/
theorem C4_travel_insertion (stops : List StopRec) (tv : List TravelRec)
    (tf : List TransferRec) :
    (∀ r ∈ tv, hasPair (buildGraph stops tv tf) r.src r.dst) ∧
    EdgesClosed (buildGraph stops tv tf) := by
  constructor
  · intro r hr
    show hasPair (addTransferEdges (addTravelEdges (stopsGraph stops) tv) tf) r.src r.dst
    exact hasPair_mono_addTransferEdges _ _ _ _ (hasPair_addTravelEdges _ tv r hr)
  · exact edgesClosed_buildGraph stops tv tf

/-- C4 witness: the travel record (A, Z, 5) yields the stored pair (A, Z)
and a closed edge set. -/
theorem C4_witness :
    (⟨"A", "Z", 5, "r1"⟩ : TravelRec) ∈ [(⟨"A", "Z", 5, "r1"⟩ : TravelRec)] ∧
      hasPair gZ "A" "Z" ∧ EdgesClosed gZ :=
  ⟨by decide,
    (C4_travel_insertion [⟨"A", "Station A", some 0, some 0⟩] [⟨"A", "Z", 5, "r1"⟩] []).1
      ⟨"A", "Z", 5, "r1"⟩ (by decide),
    (C4_travel_insertion [⟨"A", "Station A", some 0, some 0⟩] [⟨"A", "Z", 5, "r1"⟩] []).2⟩

/-- C4 counterexample: the endpoint Z of the travel record is not a loaded
Station, yet the edge (A, Z) is inserted and Z is introduced as a new node,
refuting "a Travel edge only for endpoints among the Stations" and "no
nodes other than the loaded Stations are introduced". -/
theorem C4_counterexample :
    hasPair gZ "A" "Z" ∧ gZ.hasNode "Z" ∧
      "Z" ∉ (stopsGraph [⟨"A", "Station A", some 0, some 0⟩]).nodeIds ∧
      gZ.nodeIds = ["A", "Z"] := by decide

/-- C5: an identifier that is not a node, or whose node carries no coords
attribute, yields heuristic estimate exactly 0 (the caught `KeyError`), and
every real-valued estimate is nonnegative; a lookup failure never escapes.
A loaded station with a stored NULL coordinate, however, yields `NaN`
rather than 0 (see the counterexample), which is the corrected reading of
"lacks coordinates". -/
theorem C5_heuristic_fallback (G : Graph) (u v : String) :
    (((G.attrOf u).bind NodeAttr.coords = none ∨
        (G.attrOf v).bind NodeAttr.coords = none) →
      heuristic G u v = .val 0) ∧
    ((¬G.hasNode u ∨ ¬G.hasNode v) → heuristic G u v = .val 0) ∧
    (∀ r : ℝ, heuristic G u v = .val r → 0 ≤ r) :=
  ⟨heuristic_zero_of_missing G u v, heuristic_zero_of_not_node G u v,
    fun r h => heuristic_val_nonneg G u v r h⟩

/-- C5 witness: the unknown identifier Q gives estimate exactly 0. -/
theorem C5_witness :
    (¬gZ.hasNode "Q" ∨ ¬gZ.hasNode "A") ∧ heuristic gZ "Q" "A" = .val 0 := by
  have hm : ¬gZ.hasNode "Q" ∨ ¬gZ.hasNode "A" := Or.inl (by decide)
  exact ⟨hm, (C5_heuristic_fallback gZ "Q" "A").2.1 hm⟩

/-- C5 counterexample: station N is loaded with a NULL latitude; the
estimate from N is the propagated `NaN`, not 0. -/
theorem C5_counterexample :
    heuristic gN "N" "M" = .nan ∧ ∀ r : ℝ, heuristic gN "N" "M" ≠ .val r := by
  have h : heuristic gN "N" "M" = .nan := by
    unfold heuristic
    rw [show (gN.attrOf "N").bind NodeAttr.coords = some (none, some 0) from by decide]
    rw [show (gN.attrOf "M").bind NodeAttr.coords = some (some 0, some 0) from by decide]
  refine ⟨h, fun r hc => ?_⟩
  rw [h] at hc
  exact HVal.noConfusion hc

/-- C6: the heuristic estimate is a pure function of the stored node
coordinates, entirely independent of the graph's edge set — hence nothing
ties it to path costs, and admissibility fails in general (counterexample:
antipodal stations joined by a 1-second edge). -/
theorem C6_heuristic_independent (nodes : List (String × NodeAttr)) (es1 es2 : List Edge)
    (u v : String) :
    heuristic ⟨nodes, es1⟩ u v = heuristic ⟨nodes, es2⟩ u v := rfl

/-- C6 counterexample: in `gFar` the pair (A, B) has a path of total cost
1, yet the estimate is 637100·π ≈ 2,001,508 seconds, far above it —
admissibility is violated at a pair with valid coordinates. -/
theorem C6_counterexample :
    GWalk gFar "A" "B" 1 ∧ heuristic gFar "A" "B" = .val (637100 * Real.pi) ∧
      ((1 : ℤ) : ℝ) < 637100 * Real.pi := by
  refine ⟨gFar_walk, heuristic_gFar, ?_⟩
  push_cast
  nlinarith [Real.pi_gt_three]

/-- C7: for identifiers whose nodes both carry full coordinates, the
heuristic estimate equals the spec's great-circle distance (haversine
formula, Earth radius 6,371,000 m) divided by the 10 m/s cruising speed:
the source's `atan2` haversine agrees with the spec's arcsine form. -/
theorem C7_heuristic_formula (G : Graph) (u v : String) (la1 lo1 la2 lo2 : ℚ)
    (hu : (G.attrOf u).bind NodeAttr.coords = some (some la1, some lo1))
    (hv : (G.attrOf v).bind NodeAttr.coords = some (some la2, some lo2)) :
    heuristic G u v = .val (specGreatCircle la1 lo1 la2 lo2 / 10) := by
  unfold heuristic
  rw [hu, hv]
  show HVal.val (haversine la1 lo1 la2 lo2 / 10) = _
  rw [haversine_eq_spec]

/-- C7 witness: the stations of `gFar` both carry coordinates and the
estimate is exactly the great-circle distance over 10. -/
theorem C7_witness :
    (gFar.attrOf "A").bind NodeAttr.coords = some (some 0, some 0) ∧
    (gFar.attrOf "B").bind NodeAttr.coords = some (some 0, some 180) ∧
    heuristic gFar "A" "B" = .val (specGreatCircle 0 0 0 180 / 10) :=
  ⟨by decide, by decide, C7_heuristic_formula gFar "A" "B" 0 0 0 180 (by decide) (by decide)⟩

/-- C8: when the origin or the destination is not a node, the query reports
`NodeNotFound` — for every heuristic alike, since the search engine is
never consulted before the node check. -/
theorem C8_nodeNotFound {α : Type} [LinearOrderedCommRing α] (G : Graph) (s t : String)
    (h : ¬(G.hasNode s ∧ G.hasNode t)) (hfun : String → α) :
    planRoute G hfun s t = .nodeNotFound :=
  planRoute_nodeNotFound G hfun s t h

/-- C8 witness: scenario D — the unknown origin X yields `NodeNotFound`. -/
theorem C8_witness :
    ¬(gC.hasNode "X" ∧ gC.hasNode "A") ∧ planRoute gC zeroHeur "X" "A" = .nodeNotFound :=
  ⟨by decide, C8_nodeNotFound gC "X" "A" (by decide) zeroHeur⟩

/-- C9: when both endpoints exist but the destination is unreachable, the
query reports the structured `NoPathFound` outcome: not the internal
breakdown marker and not any partial route. -/
theorem C9_noPathFound {α : Type} [LinearOrderedCommRing α] (G : Graph) (hfun : String → α)
    (s t : String) (hE : EdgesClosed G) (hs : G.hasNode s) (ht : G.hasNode t)
    (hur : ¬Reachable G s t) :
    planRoute G hfun s t = .noPathFound ∧ planRoute G hfun s t ≠ .stuck ∧
      ∀ p d, planRoute G hfun s t ≠ .route p d := by
  have h := planRoute_noPath G hfun s t hE hs ht hur
  refine ⟨h, ?_, ?_⟩
  · rw [h]
    exact fun hc => PlanResult.noConfusion hc
  · intro p d
    rw [h]
    exact fun hc => PlanResult.noConfusion hc

/-- C9 witness: scenario C — two stations with no edge; the query reports
`NoPathFound` and nothing else. -/
theorem C9_witness :
    EdgesClosed gC ∧ gC.hasNode "A" ∧ gC.hasNode "B" ∧ ¬Reachable gC "A" "B" ∧
      (planRoute gC zeroHeur "A" "B" = .noPathFound ∧
        planRoute gC zeroHeur "A" "B" ≠ .stuck ∧
        ∀ p d, planRoute gC zeroHeur "A" "B" ≠ .route p d) :=
  ⟨by decide, by decide, by decide, gC_unreach,
    C9_noPathFound gC zeroHeur "A" "B" (by decide) (by decide) (by decide) gC_unreach⟩

/-- C10: the reported total is `g[destination]`; it equals the sum of the
returned path's edge weights whenever the heuristic is consistent, but not
in general — the counterexample's run repoints a finalized node's
predecessor after the destination's cost is recorded, so the returned
total exceeds the returned path's weight sum. -/
theorem C10_total_eq_pathCost {α : Type} [LinearOrderedCommRing α]
    (stops : List StopRec) (tv : List TravelRec) (tf : List TransferRec)
    (hfun : String → α) (s t : String)
    (hW : WeightsNonneg (buildGraph stops tv tf))
    (hC : Consistent (buildGraph stops tv tf) hfun)
    (hs : (buildGraph stops tv tf).hasNode s)
    (ht : (buildGraph stops tv tf).hasNode t)
    (hr : Reachable (buildGraph stops tv tf) s t) :
    ∃ (p : List String) (c : ℤ),
      planRoute (buildGraph stops tv tf) hfun s t = .route p ((c : α)) ∧
      pathCost (buildGraph stops tv tf) p = some c := by
  obtain ⟨p, c, h1, _, _, _, h5⟩ := planRoute_found _ hfun s t
    (edgesClosed_buildGraph stops tv tf) hW (pairsNodup_buildGraph stops tv tf) hC hs ht hr
  exact ⟨p, c, h1, h5⟩

/-- C10 witness: scenario A under the all-zero heuristic — the returned
total is the weight sum of the returned path. -/
theorem C10_witness :
    WeightsNonneg gA ∧ Consistent gA zeroHeur ∧ gA.hasNode "A" ∧ gA.hasNode "C" ∧
      Reachable gA "A" "C" ∧
      ∃ (p : List String) (c : ℤ), planRoute gA zeroHeur "A" "C" = .route p ((c : ℤ)) ∧
        pathCost gA p = some c := by
  have hreach : Reachable gA "A" "C" :=
    ⟨100 + (200 + 0), .cons ⟨"A", "B", 100, .travel, some "r1"⟩ (by decide) rfl
      (.cons ⟨"B", "C", 200, .travel, some "r1"⟩ (by decide) rfl (.nil "C"))⟩
  exact ⟨by decide, by unfold Consistent zeroHeur; decide, by decide, by decide, hreach,
    C10_total_eq_pathCost stopsABC travelsABC [] zeroHeur "A" "C" (by decide)
      (by unfold Consistent zeroHeur; decide) (by decide) (by decide) hreach⟩

/-- C10 counterexample: on `gTot` the program's query returns the path
S→M→U→X whose edge weights sum to 3, together with total 1,000,756 — the
two reported values are mutually inconsistent. -/
theorem C10_counterexample :
    planRouteReal gTot "S" "X" = .route ["S", "M", "U", "X"] 1000756 ∧
      pathCost gTot ["S", "M", "U", "X"] = some 3 ∧ (1000756 : ℝ) ≠ ((3 : ℤ) : ℝ) :=
  ⟨planRouteReal_gTot, by decide, by norm_num⟩

end GtfsAstar
